import Mathlib

/-!
# A verification model of `src/partr.c` (Julia's partr task scheduler)

This file gives a shallow embedding of the scheduler core in `src/src/partr.c`:
the sharded 8-ary min-heap multi-queue (`multiq_insert` / `multiq_deletemin`
with `sift_up` / `sift_down`), the sleep controller (`snapshot`,
`sleep_check_now`, `sleep_check_after_threshold`), the wake API
(`jl_wakeup_thread`), and the task acquisition entry points (`get_next_task`,
one iteration of `jl_task_get_next`).

Modelling conventions, fixed once here:

* The model is sequential (a single caller at a time, no concurrent
  interference), which is the setting of the claims under verification.
  Consequently `jl_mutex_trylock_nogc` always succeeds on the first attempt,
  atomic loads/stores are plain state reads/writes, and a compare-and-swap
  succeeds exactly when the location holds the expected value.
* C machine integers become `Int` (for `int16_t` values such as priorities and
  thread ids) or `Nat` (for sizes, counters and `uint64_t` cycle counts);
  the `int16_t` range enters through explicit hypotheses (`≤ INT16_MAX`).
* A `jl_task_t *` becomes a `Task` value; the `id` field models pointer
  identity, `prio` and `tid` are the two fields the scheduler reads/writes.
* A heap shard's slot array `jl_task_t **tasks` becomes a total function
  `Nat → Task` together with the live count `ntasks`.  In the C code every
  slot at index `≥ ntasks` holds `NULL` (arrays are `calloc`ed and
  `multiq_deletemin` clears the vacated slot), so the null test
  `heap->tasks[child]` in `sift_down` is rendered as `child < ntasks`;
  slots at or beyond `ntasks` are dead in the model.
* The thread-local RNG `cong(max, unbias, &ptls->rngseed)` is not part of this
  repository (it lives in `julia_internal.h`); per the specification it
  returns an unbiased index in `[0, max)` and advances the per-thread seed.
  It is modelled as a prescribed stream of draws reduced into range, so
  quantifying over the stream quantifies over RNG behaviours.
* `multiq_deletemin`'s `goto retry` loop has no bound in C; the model counts
  retry rounds with an explicit `fuel` argument and reports exhaustion with a
  distinguished result (`DmResult.outOfFuel`), never conflating it with the
  genuine `NULL` return (`DmResult.empty`).
-/

namespace Partr

/-- A task handle: `id` models the `jl_task_t *` pointer identity; `prio` is
the `int16_t` priority field and `tid` the `int16_t` owner-thread id
(-1 meaning unowned). -/
structure Task where
  id : Nat
  prio : Int
  tid : Int
deriving DecidableEq

/-- `static const int16_t heap_d = 8` — heap branching factor. -/
def heap_d : Nat := 8

/-- `static const int heap_c = 4` — shards per thread. -/
def heap_c : Nat := 4

/-- `static const int tasks_per_heap = 8192` — capacity of each shard. -/
def tasks_per_heap : Nat := 8192

/-- `INT16_MAX`, the cached priority of an empty shard. -/
def INT16_MAX : Int := 32767

/-- A heap shard (`taskheap_t`): slot array, live count and the cached
minimum priority `prio` (the lock is implicit in the sequential model). -/
structure taskheap where
  tasks : Nat → Task
  ntasks : Nat
  prio : Int

/-- The multiqueue globals: `heap_p` shards in `heaps`. -/
structure Scheduler where
  heap_p : Nat
  heaps : Nat → taskheap

/-- Thread-local state: the thread id and the RNG, modelled as a stream of
raw draws `rng` with a cursor (see the header comment). -/
structure Ptls where
  tid : Int
  rng : Nat → Nat
  cursor : Nat

/-- Modelled from the spec: `cong(max, cong_unbias, &ptls->rngseed)` is not
under `src/`; it returns an unbiased random index in `[0, max)` and advances
the thread-local RNG state.  We model it as consuming the next element of the
prescribed stream, reduced into range. -/
def cong (max : Nat) (p : Ptls) : Nat × Ptls :=
  (p.rng p.cursor % max, { p with cursor := p.cursor + 1 })

/-- The three-line pointer swap used by `sift_up`/`sift_down`. -/
def swapf (f : Nat → Task) (a b : Nat) : Nat → Task :=
  fun j => if j = a then f b else if j = b then f a else f j

/-- `sift_up(heap, idx)` (partr.c:83-94): while the entry at `idx` has
strictly smaller priority than its parent `(idx-1)/heap_d`, swap them and
continue from the parent. -/
def sift_up (f : Nat → Task) (idx : Nat) : Nat → Task :=
  if 0 < idx then
    if (f idx).prio < (f ((idx - 1) / heap_d)).prio then
      sift_up (swapf f ((idx - 1) / heap_d) idx) ((idx - 1) / heap_d)
    else f
  else f
termination_by idx
decreasing_by
  exact Nat.lt_of_le_of_lt (Nat.div_le_self _ _) (Nat.sub_lt (by assumption) Nat.one_pos)

/-- The body of `sift_down(heap, idx)` (partr.c:99-114) for `idx < ntasks`.
The C `for` loop visits `child = heap_d*idx + 1, …, heap_d*idx + heap_d`
(stopping early at `tasks_per_heap`); `k` counts the children still to visit,
so the child under inspection is `heap_d*idx + (heap_d - k')` when `k = k'+1`.
A non-`NULL` slot is a slot below `ntasks` (see the header comment), and on a
strictly improving child the code swaps and recurses into that child
(`sift_down(heap, child)`, whose own `idx < ntasks` guard holds here), then
continues the loop with the next child. -/
def sdAux (n idx : Nat) (k : Nat) (f : Nat → Task) : Nat → Task :=
  match k with
  | 0 => f
  | k' + 1 =>
    if heap_d * idx + (heap_d - k') < tasks_per_heap then
      if h : heap_d * idx + (heap_d - k') < n ∧
          (f (heap_d * idx + (heap_d - k'))).prio < (f idx).prio then
        sdAux n idx k'
          (sdAux n (heap_d * idx + (heap_d - k')) heap_d
            (swapf f idx (heap_d * idx + (heap_d - k'))))
      else sdAux n idx k' f
    else f
termination_by (n - idx, k)
decreasing_by
  · apply Prod.Lex.left
    have hlt : (f (heap_d * idx + (heap_d - k'))).prio < (f idx).prio := h.2
    have hne : heap_d * idx + (heap_d - k') ≠ idx := by
      intro he
      rw [he] at hlt
      exact lt_irrefl _ hlt
    have hgt : idx < heap_d * idx + (heap_d - k') := by
      unfold heap_d at hne ⊢
      omega
    have := h.1
    omega
  · apply Prod.Lex.right
    omega
  · apply Prod.Lex.right
    omega

/-- `sift_down(heap, idx)` (partr.c:99-114): the `idx < ntasks` entry guard
followed by the loop over the `heap_d` children. -/
def sift_down (n : Nat) (f : Nat → Task) (idx : Nat) : Nat → Task :=
  if idx < n then sdAux n idx heap_d f else f

/-- The successful-push update of a shard (partr.c:135-140): append `task` at
index `ntasks`, increment `ntasks`, `sift_up` from the appended slot
(`ntasks-1` after the increment), then tighten the cached priority: the CAS
`jl_atomic_compare_exchange(&prio, prio, task->prio)` (issued only when
`task->prio < prio`) succeeds in the sequential model. -/
def pushShard (h : taskheap) (task : Task) : taskheap :=
  ⟨sift_up (Function.update h.tasks h.ntasks task) h.ntasks, h.ntasks + 1,
    if task.prio < h.prio then task.prio else h.prio⟩

/-- `multiq_insert(task, priority)` (partr.c:119-143).  Records the priority
on the task, draws a random shard (the `trylock` retry loop degenerates to a
single draw in the sequential model), fails when the shard is full (the C
code raises `jl_error` there and its dead `return -1` is the modelled error
result), otherwise performs the push (`pushShard`). -/
def multiq_insert (task : Task) (priority : Int) (p : Ptls) (s : Scheduler) :
    Int × Scheduler × Ptls :=
  let task := { task with prio := priority }
  let rn := (cong s.heap_p p).1
  let p1 := (cong s.heap_p p).2
  if tasks_per_heap ≤ (s.heaps rn).ntasks then
    (-1, s, p1)
  else
    (0, { s with heaps := Function.update s.heaps rn (pushShard (s.heaps rn) task) },
      p1)

/-- `jl_enqueue_task(task)` (partr.c:358-361). -/
def jl_enqueue_task (task : Task) (p : Ptls) (s : Scheduler) :
    Int × Scheduler × Ptls :=
  multiq_insert task task.prio p s

/-- The probe loop of `multiq_deletemin` (partr.c:155-171): up to `heap_p`
attempts (`r` counts the remaining attempts; the loop variable `i` is only a
counter in the C code), each drawing two shard indices, comparing their cached
priorities, skipping when both are `INT16_MAX`, and otherwise taking the
better one (`trylock` succeeds sequentially) and revalidating its cached
priority under the lock (trivially true sequentially, kept for fidelity).
Returns the selected shard index, or `none` when the attempts are
exhausted (`i == heap_p`). -/
def probeLoop (s : Scheduler) : Nat → Ptls → Option Nat × Ptls
  | 0, p => (none, p)
  | r + 1, p =>
    let rn1 := (cong s.heap_p p).1
    let p1 := (cong s.heap_p p).2
    let rn2 := (cong s.heap_p p1).1
    let p2 := (cong s.heap_p p1).2
    let prio1 := (s.heaps rn1).prio
    let prio2 := (s.heaps rn2).prio
    if prio2 < prio1 then
      if prio2 = (s.heaps rn2).prio then (some rn2, p2) else probeLoop s r p2
    else if prio1 = prio2 ∧ prio1 = INT16_MAX then probeLoop s r p2
    else if prio1 = (s.heaps rn1).prio then (some rn1, p2) else probeLoop s r p2

/-- Result of one `multiq_deletemin` call: a task, the `NULL` "queue looked
empty" return, or exhaustion of the modelled retry budget (the C `goto retry`
loop is unbounded; see the header comment). -/
inductive DmResult where
  | task (t : Task)
  | empty
  | outOfFuel
deriving DecidableEq

/-- The pop of the root of a locked shard (partr.c:182-189): move the last
element into slot 0 and decrement `ntasks` (the C code also nulls the vacated
slot, dead in this model), `sift_down` from the root when tasks remain, and
store the new cached priority (the new root's, or `INT16_MAX` on empty). -/
def popShard (h : taskheap) : taskheap :=
  let n1 := h.ntasks - 1
  let tasks1 := Function.update h.tasks 0 (h.tasks n1)
  if 0 < n1 then
    ⟨sift_down n1 tasks1 0, n1, (sift_down n1 tasks1 0 0).prio⟩
  else
    ⟨tasks1, n1, INT16_MAX⟩

/-- `multiq_deletemin()` (partr.c:148-193).  After the probe loop selects a
locked shard, the root task's owner is checked: if `task->tid` is neither the
caller nor `-1` the compare-and-swap on `tid` fails (returns the old value
`≠ -1`) and the whole function restarts (`goto retry`, one unit of `fuel`);
if it is `-1` the CAS claims it for the caller (the returned task carries
`tid = ptls->tid`).  Then the root is popped (`popShard`). -/
def multiq_deletemin (fuel : Nat) (p : Ptls) (s : Scheduler) :
    DmResult × Scheduler × Ptls :=
  match fuel with
  | 0 => (DmResult.outOfFuel, s, p)
  | fuel + 1 =>
    match probeLoop s s.heap_p p with
    | (none, p1) => (DmResult.empty, s, p1)
    | (some rn1, p1) =>
      let task0 := (s.heaps rn1).tasks 0
      if task0.tid ≠ p.tid ∧ task0.tid ≠ -1 then
        multiq_deletemin fuel p1 s
      else
        (DmResult.task (if task0.tid = p.tid then task0 else { task0 with tid := p.tid }),
          { s with heaps := Function.update s.heaps rn1 (popShard (s.heaps rn1)) },
          p1)

/-- `get_next_task(getsticky)` (partr.c:365-376).  The sticky hook's result is
the input `sticky` (`none` when the callback did not return a task).  On the
sticky path the code CASes `task->tid` from `-1` to the caller's tid and
ignores the CAS result: a task already owned elsewhere is returned with its
`tid` unchanged.  Otherwise the multiqueue is consulted. -/
def get_next_task (sticky : Option Task) (fuel : Nat) (p : Ptls) (s : Scheduler) :
    DmResult × Scheduler × Ptls :=
  match sticky with
  | some task =>
    if task.tid ≠ p.tid then
      if task.tid = -1 then (DmResult.task { task with tid := p.tid }, s, p)
      else (DmResult.task task, s, p)
    else (DmResult.task task, s, p)
  | none => multiq_deletemin fuel p s

/-! ## The sleep controller -/

/-- `static const int16_t not_sleeping = 0`. -/
def not_sleeping : Int := 0

/-- `static const int16_t checking_for_sleeping = 1`. -/
def checking_for_sleeping : Int := 1

/-- `static const int16_t sleeping = 2`. -/
def sleeping : Int := 2

/-- The scan loop of `snapshot()` (partr.c:196-204); `i` is the next shard to
inspect and `r` the remaining iterations (`heap_p - i`). -/
def snapshotFrom (s : Scheduler) : Nat → Nat → Bool
  | _, 0 => true
  | i, r + 1 =>
    if i < s.heap_p then
      if (s.heaps i).ntasks ≠ 0 then false else snapshotFrom s (i + 1) r
    else true

/-- `snapshot()` (partr.c:196-204): 1 iff every shard has `ntasks == 0`. -/
def snapshot (s : Scheduler) : Bool :=
  snapshotFrom s 0 s.heap_p

/-- `sleep_check_now()` (partr.c:207-241), sequentially.  `st` is
`sleep_check_state`.  With no concurrent writer: the spin-load on
`checking_for_sleeping` never terminates (modelled `none`); from
`not_sleeping` the CAS to `checking_for_sleeping` succeeds, the snapshot is
taken, and the second transition (store of `not_sleeping`, or CAS to
`sleeping`) succeeds, so the outer `while(1)` runs exactly once; any other
state falls through `assert(state == sleeping)` and returns 1.  The result is
the returned boolean together with the final `sleep_check_state`. -/
def sleep_check_now (st : Int) (s : Scheduler) : Option (Bool × Int) :=
  if st = checking_for_sleeping then
    none
  else if st = not_sleeping then
    if snapshot s then some (true, sleeping)
    else some (false, not_sleeping)
  else
    some (true, st)

/-- The eight lowercase characters of the literal `"infinite"`. -/
def infinite_chars : List Char := ['i', 'n', 'f', 'i', 'n', 'i', 't', 'e']

/-- Modelled from the spec: libc `strtoull(cp, NULL, 10)` (not part of this
repository) parses the leading decimal digits of the string; leading
whitespace/sign handling is irrelevant to the claims and omitted. -/
def strtoull10 (cp : List Char) : Nat :=
  (cp.takeWhile Char.isDigit).foldl (fun a c => a * 10 + (c.toNat - 48)) 0

/-- The `sleep_threshold` initialisation in `jl_init_threadinginfra`
(partr.c:254-261).  `cp` is the `SLEEP_THRESHOLD` environment value (as a
character list, `none` when unset) and `dflt` stands for
`DEFAULT_THREAD_SLEEP_THRESHOLD` (defined outside this repository).
`strncasecmp(cp, "infinite", 8) == 0` holds exactly when the first eight
characters of `cp` match `"infinite"` case-insensitively. -/
def init_sleep_threshold (cp : Option (List Char)) (dflt : Nat) : Nat :=
  match cp with
  | none => dflt
  | some cp =>
    if (cp.take 8).map Char.toLower = infinite_chars then 0
    else strtoull10 cp

/-- `sleep_check_after_threshold(&start_cycles)` (partr.c:306-321).  `now` is
the current `jl_hrtime()` reading (the monotonic clock guarantees
`start_cycles ≤ now` whenever `start_cycles` was set from an earlier reading).
Returns the C result bit, the new `*start_cycles` and the new
`sleep_check_state`; `none` models divergence inside `sleep_check_now`. -/
def sleep_check_after_threshold (sleep_threshold : Nat) (start_cycles : Nat)
    (now : Nat) (st : Int) (s : Scheduler) : Option (Bool × Nat × Int) :=
  if sleep_threshold ≠ 0 then
    if start_cycles = 0 then some (false, now, st)
    else if sleep_threshold ≤ now - start_cycles then
      match sleep_check_now st s with
      | none => none
      | some (true, st1) => some (true, start_cycles, st1)
      | some (false, st1) => some (false, 0, st1)
    else some (false, start_cycles, st)
  else some (false, start_cycles, st)

/-- `wake_thread(ptls, tid)` (partr.c:324-332) signals slot `tid`'s condition
variable only when it is not the caller's own slot. -/
def wake_thread (ptls_tid : Int) (tid : Nat) : Bool :=
  ptls_tid ≠ (tid : Int)

/-- `jl_wakeup_thread(tid)` (partr.c:335-354), scheduler-visible part (the
trailing libuv kick is external).  When the target differs from the caller the
controller is exchanged to `not_sleeping`; when additionally
`sleep_threshold` is nonzero and the previous state was not `not_sleeping`,
the loop signals every worker's park slot through `wake_thread` (which skips
the caller's own).  Returns the final `sleep_check_state` and the list of
worker ids whose park slot was signalled. -/
def jl_wakeup_thread (ptls_tid : Int) (tid : Int) (n_threads : Nat)
    (sleep_threshold : Nat) (st : Int) : Int × List Nat :=
  if tid ≠ ptls_tid then
    let state := st
    if sleep_threshold ≠ 0 ∧ state ≠ not_sleeping then
      (not_sleeping, (List.range n_threads).filter (fun t => wake_thread ptls_tid t))
    else (not_sleeping, [])
  else (st, [])

/-- Outcome of one iteration of the `jl_task_get_next` worker loop
(partr.c:387-436): return a task; continue the loop with updated
`spin_count` / `start_cycles` / controller / scheduler / RNG state; reach the
condition-variable wait (partr.c:429-431, "parked"); or diverge inside
`sleep_check_now`'s spin-load. -/
inductive IterStep where
  | ret (r : DmResult)
  | cont (spin : Nat) (start : Nat) (st : Int) (s : Scheduler) (p : Ptls)
  | blockedPark (st : Int) (s : Scheduler) (p : Ptls)
  | divergedCheck
deriving Nonempty

/-- Whether an iteration outcome reached the condition-variable wait. -/
def IterStep.parked : IterStep → Bool
  | IterStep.blockedPark _ _ _ => true
  | _ => false

/-- One iteration of the `jl_task_get_next(getsticky)` loop (partr.c:387-436).
External inputs of the iteration: the sticky hook's result at each of the four
`get_next_task` call sites (`sticky1`–`sticky4`), the `jl_uv_n_waiters`
counter, whether `jl_mutex_trylock(&jl_uv_mutex)` succeeds, and the
`jl_hrtime()` reading.  `jl_gc_safepoint`, `jl_process_events`, `jl_cpu_pause`
and the `uv_run` iteration have no scheduler-visible effect.  The worker falls
through to the condition-variable wait when `sleep_check_after_threshold`
returned 1 and neither the post-check extraction nor (when it wins the libuv
race) the post-`uv_run` extraction produced a task and the controller is still
`sleeping`. -/
def task_get_next_iter (sleep_threshold : Nat)
    (sticky1 sticky2 sticky3 sticky4 : Option Task)
    (uv_n_waiters : Nat) (uv_trylock : Bool) (now : Nat) (fuel : Nat)
    (spin_count start_cycles : Nat) (st : Int) (p : Ptls) (s : Scheduler) :
    IterStep :=
  let a1 := get_next_task sticky1 fuel p s
  match a1.1 with
  | DmResult.task t => IterStep.ret (DmResult.task t)
  | _ =>
    let afterSpin := fun (spin2 : Nat) (s2 : Scheduler) (p2 : Ptls) =>
      match sleep_check_after_threshold sleep_threshold start_cycles now st s2 with
      | none => IterStep.divergedCheck
      | some (false, start2, st2) => IterStep.cont spin2 start2 st2 s2 p2
      | some (true, start2, st2) =>
        let a3 := get_next_task sticky3 fuel p2 s2
        match a3.1 with
        | DmResult.task t => IterStep.ret (DmResult.task t)
        | _ =>
          if uv_trylock then
            let a4 := get_next_task sticky4 fuel a3.2.2 a3.2.1
            match a4.1 with
            | DmResult.task t => IterStep.ret (DmResult.task t)
            | _ =>
              if st2 ≠ sleeping then IterStep.cont spin2 0 st2 a4.2.1 a4.2.2
              else IterStep.blockedPark st2 a4.2.1 a4.2.2
          else IterStep.blockedPark st2 a3.2.1 a3.2.2
    let spin1 := spin_count + 1
    if 1000 < spin1 ∧ uv_n_waiters = 0 then
      let a2 := get_next_task sticky2 fuel a1.2.2 a1.2.1
      match a2.1 with
      | DmResult.task t => IterStep.ret (DmResult.task t)
      | _ => afterSpin 0 a2.2.1 a2.2.2
    else afterSpin spin1 a1.2.1 a1.2.2

/-! ## Drivers and specification predicates -/

/-- Insert a list of tasks in order via `multiq_insert(t, t->prio)` (the
`jl_enqueue_task` path), collecting the result codes. -/
def insertAll (ts : List Task) (p : Ptls) (s : Scheduler) :
    List Int × Scheduler × Ptls :=
  match ts with
  | [] => ([], s, p)
  | t :: ts =>
    let a := multiq_insert t t.prio p s
    let b := insertAll ts a.2.2 a.2.1
    (a.1 :: b.1, b.2.1, b.2.2)

/-- Perform `n` extractions via `multiq_deletemin`, collecting the results. -/
def extractN (n : Nat) (fuel : Nat) (p : Ptls) (s : Scheduler) :
    List DmResult × Scheduler × Ptls :=
  match n with
  | 0 => ([], s, p)
  | n + 1 =>
    let a := multiq_deletemin fuel p s
    let b := extractN n fuel a.2.2 a.2.1
    (a.1 :: b.1, b.2.1, b.2.2)

/-- The tasks among a list of extraction results. -/
def extractedTasks (rs : List DmResult) : List Task :=
  rs.filterMap (fun r => match r with | DmResult.task t => some t | _ => none)

/-- Whether an extraction result carries a task. -/
def DmResult.isTask : DmResult → Bool
  | DmResult.task _ => true
  | _ => false

/-- Parent index in the `heap_d`-ary heap: `(j-1)/heap_d` (Nat division;
`par 0 = 0`). -/
def par (j : Nat) : Nat := (j - 1) / heap_d

/-- `m`-fold iterated parent. -/
def parIter : Nat → Nat → Nat
  | 0, j => j
  | m + 1, j => parIter m (par j)

/-- `j` lies in the subtree rooted at `r`. -/
def inSub (r j : Nat) : Prop := ∃ m, parIter m j = r

/-- The `heap_d`-ary min-heap order on `slots[0..n)`: every parent priority is
at most each existing child's priority (spec §3, child form). -/
def heapOrd (f : Nat → Task) (n : Nat) : Prop :=
  ∀ i c : Nat, c < n → heap_d * i + 1 ≤ c → c ≤ heap_d * i + heap_d →
    (f i).prio ≤ (f c).prio

/-- The heap order in parent form: every non-root entry is at least its
parent. -/
def heapOrdP (f : Nat → Task) (n : Nat) : Prop :=
  ∀ j : Nat, 0 < j → j < n → (f (par j)).prio ≤ (f j).prio

/-- Heap order restricted to the subtree rooted at `r` (all parent edges
inside the subtree, including the edges out of `r` itself). -/
def subHeap (f : Nat → Task) (n r : Nat) : Prop :=
  ∀ j, j < n → inSub r j → j ≠ r → (f (par j)).prio ≤ (f j).prio

/-- Heap order on the subtree rooted at `r` except possibly the edges from
`r` to its immediate children ("heap except at the root"). -/
def subHeapExc (f : Nat → Task) (n r : Nat) : Prop :=
  ∀ j, j < n → inSub r j → j ≠ r → par j ≠ r → (f (par j)).prio ≤ (f j).prio

/-- The cached-minimum invariant of a shard: `prio` is `INT16_MAX` when the
shard is empty and the root's priority otherwise (spec §3). -/
def prioInv (h : taskheap) : Prop :=
  (h.ntasks = 0 → h.prio = INT16_MAX) ∧ (0 < h.ntasks → h.prio = (h.tasks 0).prio)

/-- The multiset of the first `n` slots. -/
def msetN (n : Nat) (f : Nat → Task) : Multiset Task :=
  ∑ i ∈ Finset.range n, ({f i} : Multiset Task)

/-- The multiset of task identities currently enqueued in the multiqueue. -/
def mqIds (s : Scheduler) : Multiset Nat :=
  ∑ k ∈ Finset.range s.heap_p,
    ((msetN (s.heaps k).ntasks (s.heaps k).tasks).map Task.id)

/-- Well-formedness of a shard: heap order, the cached-minimum invariant, the
capacity bound, and the `int16_t` upper bound on stored priorities. -/
def shardWF (h : taskheap) : Prop :=
  heapOrd h.tasks h.ntasks ∧ prioInv h ∧ h.ntasks ≤ tasks_per_heap ∧
    ∀ i, i < h.ntasks → (h.tasks i).prio ≤ INT16_MAX

/-- Well-formedness of the whole multiqueue. -/
def mqWF (s : Scheduler) : Prop :=
  ∀ k, k < s.heap_p → shardWF (s.heaps k)

/-! ## Concrete states used in witnesses and counterexamples -/

/-- An unowned sample task. -/
def sampleTask : Task := ⟨0, 5, -1⟩

/-- A task owned by worker 7. -/
def alienTask : Task := ⟨1, 0, 7⟩

/-- An empty shard. -/
def emptyShard : taskheap := ⟨fun _ => sampleTask, 0, INT16_MAX⟩

/-- A shard holding exactly `sampleTask`. -/
def oneShard : taskheap := ⟨fun _ => sampleTask, 1, 5⟩

/-- A completely full shard (all slots `sampleTask`). -/
def fullShard : taskheap := ⟨fun _ => sampleTask, tasks_per_heap, 5⟩

/-- An empty two-shard multiqueue. -/
def emptyMQ : Scheduler := ⟨2, fun _ => emptyShard⟩

/-- A two-shard multiqueue whose shard 0 holds one task. -/
def oneMQ : Scheduler := ⟨2, fun k => if k = 0 then oneShard else emptyShard⟩

/-- A two-shard multiqueue whose shard 0 is full. -/
def fullMQ : Scheduler := ⟨2, fun k => if k = 0 then fullShard else emptyShard⟩

/-- A worker (tid 0) whose RNG always draws 0. -/
def ptls0 : Ptls := ⟨0, fun _ => 0, 0⟩

/-- A worker (tid 5) whose RNG always draws 0. -/
def ptls5 : Ptls := ⟨5, fun _ => 0, 0⟩

/-- A worker (tid 0) whose RNG draws 0 once, then always 1: its first insert
lands in shard 0 and every later probe pair hits shard 1. -/
def ptlsMiss : Ptls := ⟨0, fun k => if k = 0 then 0 else 1, 0⟩

/-- A worker (tid 0) whose RNG always draws 1: every probe pair misses
shard 0. -/
def ptlsOnes : Ptls := ⟨0, fun _ => 1, 0⟩

/-! ## Parent / subtree arithmetic -/

theorem par_le (j : Nat) : par j ≤ j := by
  unfold par
  exact Nat.le_trans (Nat.div_le_self _ _) (Nat.sub_le _ _)

theorem par_lt (j : Nat) (h : 0 < j) : par j < j := by
  unfold par heap_d
  omega

theorem par_zero : par 0 = 0 := by
  unfold par
  rfl

theorem par_child (i c : Nat) (h1 : heap_d * i + 1 ≤ c) (h2 : c ≤ heap_d * i + heap_d) :
    par c = i := by
  unfold par heap_d at *
  omega

theorem child_bounds (j : Nat) (h : 0 < j) :
    heap_d * par j + 1 ≤ j ∧ j ≤ heap_d * par j + heap_d := by
  unfold par heap_d
  omega

theorem heapOrd_iff (f : Nat → Task) (n : Nat) : heapOrd f n ↔ heapOrdP f n := by
  constructor
  · intro H j hj hjn
    have hb := child_bounds j hj
    exact H (par j) j hjn hb.1 hb.2
  · intro H i c hc h1 h2
    have hp : par c = i := par_child i c h1 h2
    have hc0 : 0 < c := by
      unfold heap_d at h1
      omega
    have := H c hc0 hc
    rwa [hp] at this

theorem parIter_zero_root (m : Nat) : parIter m 0 = 0 := by
  induction m with
  | zero => rfl
  | succ m ih =>
    show parIter m (par 0) = 0
    rw [par_zero]
    exact ih

theorem parIter_comp (a b j : Nat) : parIter (a + b) j = parIter a (parIter b j) := by
  induction b generalizing j with
  | zero => rfl
  | succ b ih =>
    show parIter (a + b + 1) j = parIter a (parIter (b + 1) j)
    show parIter (a + b) (par j) = parIter a (parIter b (par j))
    exact ih (par j)

theorem inSub_refl (r : Nat) : inSub r r := ⟨0, rfl⟩

theorem parIter_le (m j : Nat) : parIter m j ≤ j := by
  induction m generalizing j with
  | zero => exact le_refl j
  | succ m ih => exact le_trans (ih (par j)) (par_le j)

theorem inSub_le {r j : Nat} (h : inSub r j) : r ≤ j := by
  obtain ⟨m, hm⟩ := h
  exact hm ▸ parIter_le m j

theorem inSub_par {r j : Nat} (h : inSub r (par j)) : inSub r j := by
  obtain ⟨m, hm⟩ := h
  exact ⟨m + 1, hm⟩

theorem inSub_step {r j : Nat} (h : inSub r j) (hne : j ≠ r) : inSub r (par j) := by
  obtain ⟨m, hm⟩ := h
  match m with
  | 0 => exact absurd hm hne
  | m + 1 => exact ⟨m, hm⟩

theorem inSub_trans {r c j : Nat} (h1 : inSub r c) (h2 : inSub c j) : inSub r j := by
  obtain ⟨m1, hm1⟩ := h1
  obtain ⟨m2, hm2⟩ := h2
  exact ⟨m1 + m2, by rw [parIter_comp, hm2, hm1]⟩

theorem inSub_zero (j : Nat) : inSub 0 j := by
  induction j using Nat.strong_induction_on with
  | _ j ih =>
    match j with
    | 0 => exact inSub_refl 0
    | j + 1 => exact inSub_par (ih (par (j + 1)) (par_lt _ (Nat.succ_pos j)))

theorem not_inSub_of_lt {r j : Nat} (h : j < r) : ¬ inSub r j :=
  fun hs => absurd (inSub_le hs) (Nat.not_le.mpr h)

theorem inSub_child {i c : Nat} (h : par c = i) : inSub i c :=
  inSub_par (h ▸ inSub_refl (par c))

/-- The root of a heap-ordered subtree is a minimum of the subtree. -/
theorem subHeap_root_min {f : Nat → Task} {n r : Nat} (H : subHeap f n r) :
    ∀ j, j < n → inSub r j → (f r).prio ≤ (f j).prio := by
  have main : ∀ m j, j < n → parIter m j = r → (f r).prio ≤ (f j).prio := by
    intro m
    induction m with
    | zero =>
      intro j _ hm
      exact le_of_eq (by rw [show j = r from hm])
    | succ m ih =>
      intro j hjn hm
      by_cases hjr : j = r
      · exact le_of_eq (by rw [hjr])
      · have hj0 : 0 < j := by
          rcases Nat.eq_zero_or_pos j with h0 | h0
          · subst h0
            rw [parIter_zero_root] at hm
            exact absurd hm hjr
          · exact h0
        have hpj : parIter m (par j) = r := hm
        exact le_trans (ih (par j) (lt_trans (par_lt j hj0) hjn) hpj)
          (H j hjn ⟨m + 1, hm⟩ hjr)
  intro j hjn hsub
  obtain ⟨m, hm⟩ := hsub
  exact main m j hjn hm

/-! ## Multiset bookkeeping -/

theorem swapf_self (f : Nat → Task) (a : Nat) : swapf f a a = f := by
  funext j
  unfold swapf
  by_cases h : j = a
  · simp [h]
  · simp [h]

theorem swapf_left (f : Nat → Task) (a b : Nat) : swapf f a b a = f b := by
  unfold swapf
  simp

theorem swapf_right (f : Nat → Task) (a b : Nat) : swapf f a b b = f a := by
  unfold swapf
  by_cases h : b = a
  · simp [h]
  · simp [h]

theorem swapf_other (f : Nat → Task) (a b j : Nat) (h1 : j ≠ a) (h2 : j ≠ b) :
    swapf f a b j = f j := by
  unfold swapf
  simp [h1, h2]

theorem msetN_succ (n : Nat) (f : Nat → Task) :
    msetN (n + 1) f = f n ::ₘ msetN n f := by
  unfold msetN
  rw [Finset.sum_range_succ, add_comm, ← Multiset.singleton_add]

theorem msetN_congr {n : Nat} {f g : Nat → Task} (h : ∀ j, j < n → f j = g j) :
    msetN n f = msetN n g := by
  unfold msetN
  exact Finset.sum_congr rfl (fun i hi => by rw [h i (Finset.mem_range.mp hi)])

theorem msetN_mem {x : Task} {n : Nat} {f : Nat → Task} :
    x ∈ msetN n f ↔ ∃ j, j < n ∧ f j = x := by
  unfold msetN
  rw [Finset.mem_sum]
  constructor
  · rintro ⟨i, hi, hx⟩
    exact ⟨i, Finset.mem_range.mp hi, (Multiset.mem_singleton.mp hx).symm⟩
  · rintro ⟨j, hj, hx⟩
    exact ⟨j, Finset.mem_range.mpr hj, Multiset.mem_singleton.mpr hx.symm⟩

theorem msetN_swap {a b n : Nat} (f : Nat → Task) (ha : a < n) (hb : b < n) :
    msetN n (swapf f a b) = msetN n f := by
  by_cases hab : a = b
  · subst hab
    rw [swapf_self]
  · unfold msetN
    have hamem : a ∈ Finset.range n := Finset.mem_range.mpr ha
    have hbmem : b ∈ (Finset.range n).erase a :=
      Finset.mem_erase.mpr ⟨fun h => hab h.symm, Finset.mem_range.mpr hb⟩
    rw [← Finset.add_sum_erase _ _ hamem, ← Finset.add_sum_erase _ _ hbmem,
      ← Finset.add_sum_erase _ (fun i => ({f i} : Multiset Task)) hamem,
      ← Finset.add_sum_erase _ (fun i => ({f i} : Multiset Task)) hbmem]
    rw [swapf_left, swapf_right]
    rw [Finset.sum_congr rfl (fun i hi => by
      obtain ⟨hib, hia, _⟩ := Finset.mem_erase.mp hi |>.imp id (fun h => Finset.mem_erase.mp h)
      rw [swapf_other f a b i hia hib])]
    rw [add_left_comm]

theorem msetN_update_append (n : Nat) (f : Nat → Task) (t : Task) :
    msetN (n + 1) (Function.update f n t) = t ::ₘ msetN n f := by
  rw [msetN_succ, Function.update_same]
  congr 1
  exact msetN_congr (fun j hj => Function.update_noteq (Nat.ne_of_lt hj) t f)

theorem msetN_pop (n : Nat) (f : Nat → Task) :
    msetN (n + 1) f = f 0 ::ₘ msetN n (Function.update f 0 (f n)) := by
  match n with
  | 0 =>
    rw [msetN_succ]
    rfl
  | m + 1 =>
    have h0 : (0 : Nat) ∈ Finset.range (m + 1) := Finset.mem_range.mpr (Nat.succ_pos m)
    have hcong : ∑ i ∈ (Finset.range (m + 1)).erase 0,
        ({Function.update f 0 (f (m + 1)) i} : Multiset Task) =
        ∑ i ∈ (Finset.range (m + 1)).erase 0, ({f i} : Multiset Task) :=
      Finset.sum_congr rfl (fun i hi => by
        rw [Function.update_noteq (Finset.mem_erase.mp hi).1])
    unfold msetN
    rw [Finset.sum_range_succ, ← Finset.add_sum_erase _ (fun i => ({f i} : Multiset Task)) h0,
      ← Finset.add_sum_erase _
        (fun i => ({Function.update f 0 (f (m + 1)) i} : Multiset Task)) h0]
    rw [Function.update_same, hcong, ← Multiset.singleton_add]
    abel

theorem msetN_zero (f : Nat → Task) : msetN 0 f = 0 :=
  Finset.sum_range_zero _

theorem msetN_card (n : Nat) (f : Nat → Task) : Multiset.card (msetN n f) = n := by
  induction n with
  | zero => rfl
  | succ n ih => rw [msetN_succ, Multiset.card_cons, ih]

/-! ## `sift_up` restores the heap order -/

/-- `sift_up f idx` restores the parent-form heap order on `[0, n)` and
permutes the first `n` slots, provided every non-root entry other than `idx`
respects its parent and the children of `idx` (if any) already respect
`idx`'s parent. -/
theorem sift_up_spec (idx : Nat) :
    ∀ (f : Nat → Task) (n : Nat), idx < n →
    (∀ j, 0 < j → j < n → j ≠ idx → (f (par j)).prio ≤ (f j).prio) →
    (∀ c, 0 < c → c < n → par c = idx → 0 < idx → (f (par idx)).prio ≤ (f c).prio) →
    heapOrdP (sift_up f idx) n ∧ msetN n (sift_up f idx) = msetN n f := by
  induction idx using Nat.strong_induction_on with
  | _ idx ih =>
    intro f n hn H1 H2
    rw [sift_up]
    by_cases hpos : 0 < idx
    · rw [if_pos hpos]
      by_cases hlt : (f idx).prio < (f ((idx - 1) / heap_d)).prio
      · rw [if_pos hlt]
        have hq : (idx - 1) / heap_d = par idx := rfl
        rw [hq] at hlt ⊢
        set q := par idx with hqdef
        have hqlt : q < idx := par_lt idx hpos
        have hqn : q < n := lt_trans hqlt hn
        set g := swapf f q idx with hgdef
        have hgq : g q = f idx := swapf_left f q idx
        have hgidx : g idx = f q := swapf_right f q idx
        have hgother : ∀ j, j ≠ q → j ≠ idx → g j = f j :=
          fun j h1 h2 => swapf_other f q idx j h1 h2
        have H1' : ∀ j, 0 < j → j < n → j ≠ q → (g (par j)).prio ≤ (g j).prio := by
          intro j hj0 hjn hjq
          by_cases hjidx : j = idx
          · subst hjidx
            rw [← hqdef, hgq, hgidx]
            exact le_of_lt hlt
          · rw [hgother j hjq hjidx]
            by_cases hpj : par j = idx
            · rw [hpj, hgidx]
              exact H2 j hj0 hjn hpj hpos
            · by_cases hpjq : par j = q
              · rw [hpjq, hgq]
                have := H1 j hj0 hjn hjidx
                rw [hpjq] at this
                exact le_trans (le_of_lt hlt) this
              · rw [hgother (par j) hpjq hpj]
                exact H1 j hj0 hjn hjidx
        have H2' : ∀ c, 0 < c → c < n → par c = q → 0 < q →
            (g (par q)).prio ≤ (g c).prio := by
          intro c hc0 hcn hpc hq0
          have hpq_lt : par q < q := par_lt q hq0
          have hpq_ne_idx : par q ≠ idx := Nat.ne_of_lt (lt_trans hpq_lt hqlt)
          have hpq_ne_q : par q ≠ q := Nat.ne_of_lt hpq_lt
          rw [hgother (par q) hpq_ne_q hpq_ne_idx]
          have hbase : (f (par q)).prio ≤ (f q).prio :=
            H1 q hq0 hqn (Nat.ne_of_lt hqlt)
          by_cases hcidx : c = idx
          · subst hcidx
            rw [hgidx]
            exact hbase
          · have hcq : c ≠ q := by
              have : q < c := hpc ▸ par_lt c hc0
              exact Nat.ne_of_gt this
            rw [hgother c hcq hcidx]
            have := H1 c hc0 hcn hcidx
            rw [hpc] at this
            exact le_trans hbase this
        obtain ⟨hord, hms⟩ := ih q hqlt g n hqn H1' H2'
        exact ⟨hord, hms.trans (msetN_swap f hqn hn)⟩
      · rw [if_neg hlt]
        refine ⟨?_, rfl⟩
        intro j hj0 hjn
        by_cases hjidx : j = idx
        · rw [hjidx]
          exact le_of_not_lt hlt
        · exact H1 j hj0 hjn hjidx
    · rw [if_neg hpos]
      refine ⟨?_, rfl⟩
      intro j hj0 hjn
      have hjidx : j ≠ idx := by omega
      exact H1 j hj0 hjn hjidx

/-! ## `sift_down` restores the heap order -/

theorem sdAux_zero (n idx : Nat) (f : Nat → Task) : sdAux n idx 0 f = f := by
  rw [sdAux]

theorem sdAux_succ_capacity {n idx k' : Nat} (f : Nat → Task)
    (hcap : ¬ heap_d * idx + (heap_d - k') < tasks_per_heap) :
    sdAux n idx (k' + 1) f = f := by
  rw [sdAux, if_neg hcap]

theorem sdAux_succ_swap {n idx k' : Nat} (f : Nat → Task)
    (hcap : heap_d * idx + (heap_d - k') < tasks_per_heap)
    (h : heap_d * idx + (heap_d - k') < n ∧
      (f (heap_d * idx + (heap_d - k'))).prio < (f idx).prio) :
    sdAux n idx (k' + 1) f =
      sdAux n idx k'
        (sdAux n (heap_d * idx + (heap_d - k')) heap_d
          (swapf f idx (heap_d * idx + (heap_d - k')))) := by
  rw [sdAux, if_pos hcap, dif_pos h]

theorem sdAux_succ_skip {n idx k' : Nat} (f : Nat → Task)
    (hcap : heap_d * idx + (heap_d - k') < tasks_per_heap)
    (h : ¬ (heap_d * idx + (heap_d - k') < n ∧
      (f (heap_d * idx + (heap_d - k'))).prio < (f idx).prio)) :
    sdAux n idx (k' + 1) f = sdAux n idx k' f := by
  rw [sdAux, if_pos hcap, dif_neg h]

/-- The main invariant argument for `sdAux`.  Entering the loop at remaining
count `k` (so the children `c < heap_d*idx + 9 - k` have been processed and
already respect `idx`), with the subtree of `idx` heap-ordered except at the
root: the loop restores heap order on the whole subtree, touches nothing
outside the subtree (nor at or beyond `n`), preserves lower bounds on the
subtree, and permutes the first `n` slots. -/
theorem sdAux_spec :
    ∀ (M k n idx : Nat) (f : Nat → Task),
    (n - idx) * 10 + k ≤ M →
    k ≤ heap_d → idx < n → n ≤ tasks_per_heap →
    subHeapExc f n idx →
    (∀ c, c < n → par c = idx → c < heap_d * idx + 9 - k → (f idx).prio ≤ (f c).prio) →
    subHeap (sdAux n idx k f) n idx ∧
    (∀ j, ¬ inSub idx j → sdAux n idx k f j = f j) ∧
    (∀ j, n ≤ j → sdAux n idx k f j = f j) ∧
    (∀ b : Int, (∀ j, j < n → inSub idx j → b ≤ (f j).prio) →
       ∀ j, j < n → inSub idx j → b ≤ (sdAux n idx k f j).prio) ∧
    msetN n (sdAux n idx k f) = msetN n f := by
  intro M
  induction M with
  | zero =>
    intro k n idx f hM _ hidx _ _ _
    exact absurd hM (by omega)
  | succ M ih =>
    intro k n idx f hM hk hidx hn Hexc Hdone
    match k with
    | 0 =>
      rw [sdAux_zero]
      refine ⟨?_, fun _ _ => rfl, fun _ _ => rfl, fun b hb => hb, rfl⟩
      intro j hjn hjsub hjne
      by_cases hpj : par j = idx
      · have hj0 : 0 < j := by
          have := inSub_le hjsub
          omega
        have hb := child_bounds j hj0
        rw [hpj] at hb ⊢
        refine Hdone j hjn hpj ?_
        rw [show heap_d = 8 from rfl] at hb ⊢
        omega
      · exact Hexc j hjn hjsub hjne hpj
    | k' + 1 =>
      have hd8 : heap_d = 8 := rfl
      have hk7 : k' ≤ 7 := by
        rw [hd8] at hk
        omega
      by_cases hcap : heap_d * idx + (heap_d - k') < tasks_per_heap
      · set child := heap_d * idx + (heap_d - k') with hchild_def
        have hceq : child = 8 * idx + (8 - k') := by
          rw [hchild_def, hd8]
        have hcb : heap_d * idx + 1 ≤ child ∧ child ≤ heap_d * idx + heap_d := by
          rw [hd8, hceq]
          omega
        have hpc : par child = idx := par_child idx child hcb.1 hcb.2
        have hic : idx < child := by
          rw [hceq]
          omega
        have hsubc : inSub idx child := inSub_child hpc
        by_cases hsw : child < n ∧ (f child).prio < (f idx).prio
        · rw [sdAux_succ_swap f hcap hsw]
          obtain ⟨hcn, hlt⟩ := hsw
          set g0 := swapf f idx child with hg0
          have hg0idx : g0 idx = f child := swapf_left f idx child
          have hg0child : g0 child = f idx := swapf_right f idx child
          have hg0other : ∀ j, j ≠ idx → j ≠ child → g0 j = f j :=
            fun j h1 h2 => swapf_other f idx child j h1 h2
          -- the subtree of `child` was fully heap-ordered in `f`
          have hsubheap_f_child : subHeap f n child := by
            intro j hjn hjsub hjne
            have hcj : child < j := lt_of_le_of_ne (inSub_le hjsub) (Ne.symm hjne)
            have hjidx : j ≠ idx := Nat.ne_of_gt (lt_trans hic hcj)
            have hpar_ge : child ≤ par j := inSub_le (inSub_step hjsub hjne)
            have hpar_ne : par j ≠ idx := Nat.ne_of_gt (lt_of_lt_of_le hic hpar_ge)
            exact Hexc j hjn (inSub_trans hsubc hjsub) hjidx hpar_ne
          have hrootmin := subHeap_root_min hsubheap_f_child
          -- hypotheses of the descent into `child`
          have Hexc' : subHeapExc g0 n child := by
            intro j hjn hjsub hjne hpj
            have hcj : child < j := lt_of_le_of_ne (inSub_le hjsub) (Ne.symm hjne)
            have hjidx : j ≠ idx := Nat.ne_of_gt (lt_trans hic hcj)
            have hpar_ge : child ≤ par j := inSub_le (inSub_step hjsub hjne)
            have hpar_ne_idx : par j ≠ idx := Nat.ne_of_gt (lt_of_lt_of_le hic hpar_ge)
            rw [hg0other j hjidx hjne, hg0other (par j) hpar_ne_idx hpj]
            exact hsubheap_f_child j hjn hjsub hjne
          have Hdone' : ∀ c, c < n → par c = child →
              c < heap_d * child + 9 - heap_d → (g0 child).prio ≤ (g0 c).prio := by
            intro c hc hpcc hclt
            exfalso
            have hc0 : 0 < c := by
              have h1 := inSub_le (inSub_child hpcc)
              omega
            have hb := child_bounds c hc0
            rw [hpcc] at hb
            rw [hd8] at hb hclt
            omega
          have hM1 : (n - child) * 10 + heap_d ≤ M := by
            rw [hd8]
            omega
          obtain ⟨G1a, G1loc, G1locN, G1lb, G1ms⟩ :=
            ih heap_d n child g0 hM1 (le_refl heap_d) hcn hn Hexc' Hdone'
          set g1 := sdAux n child heap_d g0 with hg1
          have hg1idx : g1 idx = f child := by
            rw [G1loc idx (not_inSub_of_lt hic), hg0idx]
          -- hypotheses of the continuation of the loop at `idx`
          have Hexc'' : subHeapExc g1 n idx := by
            intro j hjn hjsub hjne hpj
            by_cases hjc : inSub child j
            · by_cases hjceq : j = child
              · exact absurd (hjceq ▸ hpc) hpj
              · exact G1a j hjn hjc hjceq
            · have hpar_nsub : ¬ inSub child (par j) :=
                fun hp => hjc (inSub_par hp)
              rw [G1loc j hjc, G1loc (par j) hpar_nsub]
              have hjc2 : j ≠ child := fun he => hjc (he ▸ inSub_refl child)
              have hpjc : par j ≠ child := fun he => hpar_nsub (he ▸ inSub_refl child)
              rw [hg0other j hjne hjc2, hg0other (par j) hpj hpjc]
              exact Hexc j hjn hjsub hjne hpj
          have Hdone'' : ∀ c, c < n → par c = idx →
              c < heap_d * idx + 9 - k' → (g1 idx).prio ≤ (g1 c).prio := by
            intro c hc hpcc hclt
            rw [hg1idx]
            by_cases hcc : c = child
            · rw [hcc]
              refine G1lb (f child).prio ?_ child hcn (inSub_refl child)
              intro j hjn hjsub
              by_cases hjc : j = child
              · rw [hjc, hg0child]
                exact le_of_lt hlt
              · have hcj : child < j := lt_of_le_of_ne (inSub_le hjsub) (Ne.symm hjc)
                rw [hg0other j (Nat.ne_of_gt (lt_trans hic hcj)) hjc]
                exact hrootmin j hjn hjsub
            · have hcless : c < child := by
                rw [hd8] at hclt
                rw [hceq]
                omega
              have hcnsub : ¬ inSub child c := not_inSub_of_lt hcless
              rw [G1loc c hcnsub]
              by_cases hcidx : c = idx
              · rw [hcidx, hg0idx]
              · rw [hg0other c hcidx hcc]
                refine le_trans (le_of_lt hlt) (Hdone c hc hpcc ?_)
                rw [hd8]
                omega
          have hM2 : (n - idx) * 10 + k' ≤ M := by omega
          obtain ⟨G2a, G2loc, G2locN, G2lb, G2ms⟩ :=
            ih k' n idx g1 hM2 (by rw [hd8]; omega) hidx hn Hexc'' Hdone''
          refine ⟨G2a, ?_, ?_, ?_, ?_⟩
          · intro j hjno
            have hjnc : ¬ inSub child j := fun hc => hjno (inSub_trans hsubc hc)
            have hji : j ≠ idx := fun he => hjno (he ▸ inSub_refl idx)
            have hjc : j ≠ child := fun he => hjno (he ▸ hsubc)
            rw [G2loc j hjno, G1loc j hjnc, hg0other j hji hjc]
          · intro j hjn2
            have hji : j ≠ idx := by omega
            have hjc : j ≠ child := by omega
            rw [G2locN j hjn2, G1locN j hjn2, hg0other j hji hjc]
          · intro b hb
            have hb0 : ∀ j, j < n → inSub idx j → b ≤ (g0 j).prio := by
              intro j hjn hjsub
              by_cases hji : j = idx
              · rw [hji, hg0idx]
                exact hb child hcn hsubc
              · by_cases hjc : j = child
                · rw [hjc, hg0child]
                  exact hb idx hidx (inSub_refl idx)
                · rw [hg0other j hji hjc]
                  exact hb j hjn hjsub
            have hb1 : ∀ j, j < n → inSub idx j → b ≤ (g1 j).prio := by
              intro j hjn hjsub
              by_cases hjc : inSub child j
              · exact G1lb b (fun j2 hj2 hsub2 =>
                  hb0 j2 hj2 (inSub_trans hsubc hsub2)) j hjn hjc
              · rw [G1loc j hjc]
                exact hb0 j hjn hjsub
            exact G2lb b hb1
          · rw [G2ms, G1ms, hg0]
            exact msetN_swap f hidx hcn
        · rw [sdAux_succ_skip f hcap hsw]
          have hM2 : (n - idx) * 10 + k' ≤ M := by omega
          have Hdone2 : ∀ c, c < n → par c = idx →
              c < heap_d * idx + 9 - k' → (f idx).prio ≤ (f c).prio := by
            intro c hc hpcc hclt
            by_cases hcc : c = child
            · rw [hcc]
              rcases not_and_or.mp hsw with h1 | h2
              · exact absurd hc (hcc ▸ h1)
              · exact le_of_not_lt h2
            · refine Hdone c hc hpcc ?_
              rw [hd8] at hclt ⊢
              rw [hceq] at hcc
              omega
          exact ih k' n idx f hM2 (by rw [hd8]; omega) hidx hn Hexc Hdone2
      · rw [sdAux_succ_capacity f hcap]
        refine ⟨?_, fun _ _ => rfl, fun _ _ => rfl, fun b hb => hb, rfl⟩
        intro j hjn hjsub hjne
        by_cases hpj : par j = idx
        · have hj0 : 0 < j := by
            have := inSub_le hjsub
            omega
          have hb := child_bounds j hj0
          rw [hpj] at hb ⊢
          refine Hdone j hjn hpj ?_
          rw [show tasks_per_heap = 8192 from rfl] at hcap hn
          rw [hd8] at hb hcap ⊢
          omega
        · exact Hexc j hjn hjsub hjne hpj

/-- `sift_down` from the root restores heap order and permutes the live
slots, given heap order everywhere except possibly at the root's edges. -/
theorem sift_down_root_spec (n : Nat) (f : Nat → Task)
    (hn0 : 0 < n) (hn : n ≤ tasks_per_heap)
    (H : ∀ j, 0 < j → j < n → par j ≠ 0 → (f (par j)).prio ≤ (f j).prio) :
    heapOrdP (sift_down n f 0) n ∧ msetN n (sift_down n f 0) = msetN n f := by
  unfold sift_down
  rw [if_pos hn0]
  have hexc : subHeapExc f n 0 := by
    intro j hjn hjsub hjne hpj
    exact H j (Nat.pos_of_ne_zero hjne) hjn hpj
  have hdone : ∀ c, c < n → par c = 0 → c < heap_d * 0 + 9 - heap_d →
      (f 0).prio ≤ (f c).prio := by
    intro c _ _ hc
    rw [show heap_d = 8 from rfl] at hc
    have hc0 : c = 0 := by omega
    rw [hc0]
  obtain ⟨ha, _, _, _, hms⟩ :=
    sdAux_spec ((n - 0) * 10 + heap_d) heap_d n 0 f (le_refl _) (le_refl _) hn0 hn
      hexc hdone
  refine ⟨?_, hms⟩
  intro j hj0 hjn
  exact ha j hjn (inSub_zero j) (Nat.pos_iff_ne_zero.mp hj0)

/-- The root of a heap-ordered prefix is a minimum. -/
theorem heapOrdP_root_min {f : Nat → Task} {n : Nat} (H : heapOrdP f n) :
    ∀ j, j < n → (f 0).prio ≤ (f j).prio := by
  have hs : subHeap f n 0 := fun j hjn _ hjne => H j (Nat.pos_of_ne_zero hjne) hjn
  intro j hjn
  exact subHeap_root_min hs j hjn (inSub_zero j)

/-! ## Shard push/pop specifications -/

theorem pushShard_spec {h : taskheap} (t : Task) (hord : heapOrd h.tasks h.ntasks) :
    heapOrd (pushShard h t).tasks (pushShard h t).ntasks ∧
    msetN (pushShard h t).ntasks (pushShard h t).tasks = t ::ₘ msetN h.ntasks h.tasks := by
  have hP := (heapOrd_iff _ _).mp hord
  have H1 : ∀ j, 0 < j → j < h.ntasks + 1 → j ≠ h.ntasks →
      ((Function.update h.tasks h.ntasks t) (par j)).prio ≤
        ((Function.update h.tasks h.ntasks t) j).prio := by
    intro j hj0 hjn hjne
    have hjlt : j < h.ntasks := by omega
    rw [Function.update_noteq (Nat.ne_of_lt hjlt),
      Function.update_noteq (Nat.ne_of_lt (lt_trans (par_lt j hj0) hjlt))]
    exact hP j hj0 hjlt
  have H2 : ∀ c, 0 < c → c < h.ntasks + 1 → par c = h.ntasks → 0 < h.ntasks →
      ((Function.update h.tasks h.ntasks t) (par h.ntasks)).prio ≤
        ((Function.update h.tasks h.ntasks t) c).prio := by
    intro c hc0 hcn hpc _
    exfalso
    have hb := child_bounds c hc0
    rw [hpc] at hb
    rw [show heap_d = 8 from rfl] at hb
    omega
  obtain ⟨ho, hms⟩ := sift_up_spec h.ntasks (Function.update h.tasks h.ntasks t)
    (h.ntasks + 1) (Nat.lt_succ_self h.ntasks) H1 H2
  refine ⟨(heapOrd_iff _ _).mpr ho, ?_⟩
  show msetN (h.ntasks + 1) (sift_up (Function.update h.tasks h.ntasks t) h.ntasks) =
    t ::ₘ msetN h.ntasks h.tasks
  rw [hms]
  exact msetN_update_append h.ntasks h.tasks t

/-- The new root after a push is the smaller of the old root and the pushed
task (in priority). -/
theorem pushShard_root {h : taskheap} (t : Task) (hord : heapOrd h.tasks h.ntasks)
    (h0 : 0 < h.ntasks) :
    ((pushShard h t).tasks 0).prio =
      if t.prio < (h.tasks 0).prio then t.prio else (h.tasks 0).prio := by
  obtain ⟨hordg, hmsg⟩ := pushShard_spec t hord
  have hPg := (heapOrd_iff _ _).mp hordg
  have hP := (heapOrd_iff _ _).mp hord
  have hnt : (pushShard h t).ntasks = h.ntasks + 1 := rfl
  have hubt : ((pushShard h t).tasks 0).prio ≤ t.prio := by
    have hmem : t ∈ msetN (pushShard h t).ntasks (pushShard h t).tasks := by
      rw [hmsg]
      exact Multiset.mem_cons_self t _
    obtain ⟨j, hj, he⟩ := msetN_mem.mp hmem
    calc ((pushShard h t).tasks 0).prio ≤ ((pushShard h t).tasks j).prio :=
          heapOrdP_root_min hPg j hj
      _ = t.prio := by rw [he]
  have hubf : ((pushShard h t).tasks 0).prio ≤ (h.tasks 0).prio := by
    have hmem : h.tasks 0 ∈ msetN (pushShard h t).ntasks (pushShard h t).tasks := by
      rw [hmsg]
      exact Multiset.mem_cons_of_mem (msetN_mem.mpr ⟨0, h0, rfl⟩)
    obtain ⟨j, hj, he⟩ := msetN_mem.mp hmem
    calc ((pushShard h t).tasks 0).prio ≤ ((pushShard h t).tasks j).prio :=
          heapOrdP_root_min hPg j hj
      _ = (h.tasks 0).prio := by rw [he]
  have hlb : (pushShard h t).tasks 0 = t ∨
      (h.tasks 0).prio ≤ ((pushShard h t).tasks 0).prio := by
    have hmem : (pushShard h t).tasks 0 ∈
        msetN (pushShard h t).ntasks (pushShard h t).tasks :=
      msetN_mem.mpr ⟨0, by rw [hnt]; exact Nat.succ_pos _, rfl⟩
    rw [hmsg] at hmem
    rcases Multiset.mem_cons.mp hmem with he | hmem2
    · exact Or.inl he
    · obtain ⟨j, hj, he⟩ := msetN_mem.mp hmem2
      exact Or.inr (he ▸ heapOrdP_root_min hP j hj)
  by_cases hlt : t.prio < (h.tasks 0).prio
  · rw [if_pos hlt]
    refine le_antisymm hubt ?_
    rcases hlb with he | hle
    · rw [he]
    · exact absurd (lt_of_le_of_lt (le_trans hle hubt) hlt) (lt_irrefl _)
  · rw [if_neg hlt]
    refine le_antisymm hubf ?_
    rcases hlb with he | hle
    · rw [he]
      exact le_of_not_lt hlt
    · exact hle

theorem pushShard_prioInv {h : taskheap} (t : Task) (hord : heapOrd h.tasks h.ntasks)
    (hpi : prioInv h) (hle : t.prio ≤ INT16_MAX) : prioInv (pushShard h t) := by
  constructor
  · intro habs
    exact absurd habs (Nat.succ_ne_zero h.ntasks)
  · intro _
    show (if t.prio < h.prio then t.prio else h.prio) =
      ((pushShard h t).tasks 0).prio
    rcases Nat.eq_zero_or_pos h.ntasks with h0 | h0
    · have hroot : (pushShard h t).tasks 0 = t := by
        show sift_up (Function.update h.tasks h.ntasks t) h.ntasks 0 = t
        rw [h0, sift_up]
        simp
      rw [hroot, hpi.1 h0]
      by_cases hlt : t.prio < INT16_MAX
      · rw [if_pos hlt]
      · rw [if_neg hlt]
        exact le_antisymm (le_of_not_lt hlt) hle
    · rw [pushShard_root t hord h0, hpi.2 h0]

theorem pushShard_bound {h : taskheap} (t : Task) (hord : heapOrd h.tasks h.ntasks)
    (hb : ∀ i, i < h.ntasks → (h.tasks i).prio ≤ INT16_MAX) (ht : t.prio ≤ INT16_MAX) :
    ∀ i, i < (pushShard h t).ntasks → ((pushShard h t).tasks i).prio ≤ INT16_MAX := by
  intro i hi
  obtain ⟨_, hmsg⟩ := pushShard_spec t hord
  have hmem : (pushShard h t).tasks i ∈
      msetN (pushShard h t).ntasks (pushShard h t).tasks := msetN_mem.mpr ⟨i, hi, rfl⟩
  rw [hmsg] at hmem
  rcases Multiset.mem_cons.mp hmem with he | hmem2
  · rw [he]
    exact ht
  · obtain ⟨j, hj, he⟩ := msetN_mem.mp hmem2
    rw [← he]
    exact hb j hj

theorem popShard_spec {h : taskheap} (hord : heapOrd h.tasks h.ntasks)
    (hcap : h.ntasks ≤ tasks_per_heap) :
    heapOrd (popShard h).tasks (popShard h).ntasks ∧
    (popShard h).ntasks = h.ntasks - 1 ∧
    prioInv (popShard h) ∧
    (0 < h.ntasks →
      msetN h.ntasks h.tasks = h.tasks 0 ::ₘ msetN (popShard h).ntasks (popShard h).tasks) := by
  have hP := (heapOrd_iff _ _).mp hord
  unfold popShard
  by_cases h1 : 0 < h.ntasks - 1
  · rw [if_pos h1]
    dsimp only
    have hnn : h.ntasks = (h.ntasks - 1) + 1 := by omega
    have H : ∀ j, 0 < j → j < h.ntasks - 1 → par j ≠ 0 →
        ((Function.update h.tasks 0 (h.tasks (h.ntasks - 1))) (par j)).prio ≤
          ((Function.update h.tasks 0 (h.tasks (h.ntasks - 1))) j).prio := by
      intro j hj0 hjn hpj
      rw [Function.update_noteq (Nat.pos_iff_ne_zero.mp hj0),
        Function.update_noteq hpj]
      exact hP j hj0 (by omega)
    obtain ⟨ho, hms⟩ := sift_down_root_spec (h.ntasks - 1)
      (Function.update h.tasks 0 (h.tasks (h.ntasks - 1))) h1
      (Nat.le_trans (Nat.sub_le _ _) hcap) H
    refine ⟨(heapOrd_iff _ _).mpr ho, rfl,
      ⟨fun habs => absurd habs (Nat.pos_iff_ne_zero.mp h1), fun _ => rfl⟩, ?_⟩
    intro _
    rw [hnn, msetN_pop (h.ntasks - 1) h.tasks]
    congr 1
    exact hms.symm
  · rw [if_neg h1]
    dsimp only
    have hz : h.ntasks - 1 = 0 := by omega
    refine ⟨?_, rfl, ⟨fun _ => rfl, fun habs => absurd (hz ▸ habs) (lt_irrefl 0)⟩, ?_⟩
    · intro i c hc _ _
      rw [hz] at hc
      exact absurd hc (Nat.not_lt_zero c)
    · intro h0
      have hone : h.ntasks = 1 := by omega
      rw [hz, hone, msetN_succ, msetN_zero, msetN_zero]

theorem popShard_bound {h : taskheap} (hord : heapOrd h.tasks h.ntasks)
    (hcap : h.ntasks ≤ tasks_per_heap)
    (hb : ∀ i, i < h.ntasks → (h.tasks i).prio ≤ INT16_MAX) :
    ∀ i, i < (popShard h).ntasks → ((popShard h).tasks i).prio ≤ INT16_MAX := by
  intro i hi
  obtain ⟨_, hnt, _, hms⟩ := popShard_spec hord hcap
  have h0 : 0 < h.ntasks := by omega
  have hmem : (popShard h).tasks i ∈ msetN (popShard h).ntasks (popShard h).tasks :=
    msetN_mem.mpr ⟨i, hi, rfl⟩
  have hmem2 : (popShard h).tasks i ∈ msetN h.ntasks h.tasks := by
    rw [hms h0]
    exact Multiset.mem_cons_of_mem hmem
  obtain ⟨j, hj, he⟩ := msetN_mem.mp hmem2
  rw [← he]
  exact hb j hj

/-! ## Multiqueue-level bookkeeping -/

theorem shardWF_prio_le {h : taskheap} (hwf : shardWF h) : h.prio ≤ INT16_MAX := by
  obtain ⟨_, hpi, _, hb⟩ := hwf
  rcases Nat.eq_zero_or_pos h.ntasks with h0 | h0
  · exact le_of_eq (hpi.1 h0)
  · rw [hpi.2 h0]
    exact hb 0 h0

/-- Replacing one shard exchanges exactly that shard's contribution to the
identity multiset. -/
theorem mqIds_update (s : Scheduler) (rn : Nat) (hh : taskheap) (hrn : rn < s.heap_p) :
    mqIds { s with heaps := Function.update s.heaps rn hh } +
      (msetN (s.heaps rn).ntasks (s.heaps rn).tasks).map Task.id =
    mqIds s + (msetN hh.ntasks hh.tasks).map Task.id := by
  unfold mqIds
  have hmem : rn ∈ Finset.range s.heap_p := Finset.mem_range.mpr hrn
  have hrest : ∑ k ∈ (Finset.range s.heap_p).erase rn,
      ((msetN ((Function.update s.heaps rn hh) k).ntasks
        ((Function.update s.heaps rn hh) k).tasks).map Task.id) =
      ∑ k ∈ (Finset.range s.heap_p).erase rn,
      ((msetN (s.heaps k).ntasks (s.heaps k).tasks).map Task.id) :=
    Finset.sum_congr rfl (fun k hk => by
      rw [Function.update_noteq (Finset.mem_erase.mp hk).1])
  rw [← Finset.add_sum_erase _ (fun k =>
      ((msetN ((Function.update s.heaps rn hh) k).ntasks
        ((Function.update s.heaps rn hh) k).tasks).map Task.id)) hmem,
    ← Finset.add_sum_erase _ (fun k =>
      ((msetN (s.heaps k).ntasks (s.heaps k).tasks).map Task.id)) hmem]
  rw [Function.update_same, hrest]
  abel

theorem probeLoop_tid {s : Scheduler} :
    ∀ (r : Nat) (p : Ptls) {o : Option Nat} {p' : Ptls},
    probeLoop s r p = (o, p') → p'.tid = p.tid ∧ p'.rng = p.rng := by
  intro r
  induction r with
  | zero =>
    intro p o p' h
    injection h with h1 h2
    rw [← h2]
    exact ⟨rfl, rfl⟩
  | succ r ih =>
    intro p o p' h
    simp only [probeLoop, cong] at h
    split at h
    · split at h
      · injection h with h1 h2
        rw [← h2]
        exact ⟨rfl, rfl⟩
      · have := ih _ h
        exact this
    · split at h
      · have := ih _ h
        exact this
      · split at h
        · injection h with h1 h2
          rw [← h2]
          exact ⟨rfl, rfl⟩
        · have := ih _ h
          exact this

/-- A successful probe selects an existing shard. -/
theorem probeLoop_some_lt {s : Scheduler} (hp0 : 0 < s.heap_p) :
    ∀ (r : Nat) (p : Ptls) {rn : Nat} {p' : Ptls},
    probeLoop s r p = (some rn, p') → rn < s.heap_p := by
  intro r
  induction r with
  | zero =>
    intro p rn p' h
    injection h with h1 _
    exact absurd h1 (by simp)
  | succ r ih =>
    intro p rn p' h
    simp only [probeLoop, cong] at h
    split at h
    · split at h
      · injection h with h1 _
        injection h1 with h1
        rw [← h1]
        exact Nat.mod_lt _ hp0
      · exact ih _ h
    · split at h
      · exact ih _ h
      · split at h
        · injection h with h1 _
          injection h1 with h1
          rw [← h1]
          exact Nat.mod_lt _ hp0
        · exact ih _ h

/-- A successful probe selects a shard whose cached priority is not
`INT16_MAX` (assuming all cached priorities are `int16` values). -/
theorem probeLoop_some_max {s : Scheduler} (hp0 : 0 < s.heap_p)
    (hmax : ∀ k, k < s.heap_p → (s.heaps k).prio ≤ INT16_MAX) :
    ∀ (r : Nat) (p : Ptls) {rn : Nat} {p' : Ptls},
    probeLoop s r p = (some rn, p') → (s.heaps rn).prio ≠ INT16_MAX := by
  intro r
  induction r with
  | zero =>
    intro p rn p' h
    injection h with h1 _
    exact absurd h1 (by simp)
  | succ r ih =>
    intro p rn p' h
    simp only [probeLoop, cong] at h
    split at h
    · rename_i hlt
      split at h
      · injection h with h1 _
        injection h1 with h1
        rw [← h1]
        have hlt1 : (s.heaps (p.rng p.cursor % s.heap_p)).prio ≤ INT16_MAX :=
          hmax _ (Nat.mod_lt _ hp0)
        intro he
        rw [he] at hlt
        exact absurd (lt_of_le_of_lt hlt1 hlt) (lt_irrefl _)
      · exact ih _ h
    · rename_i hnlt
      split at h
      · exact ih _ h
      · rename_i hnboth
        split at h
        · injection h with h1 _
          injection h1 with h1
          rw [← h1]
          intro he
          have hle2 : (s.heaps (p.rng (p.cursor + 1) % s.heap_p)).prio ≤ INT16_MAX :=
            hmax _ (Nat.mod_lt _ hp0)
          have : (s.heaps (p.rng (p.cursor + 1) % s.heap_p)).prio = INT16_MAX := by
            rw [he] at hnlt
            exact le_antisymm hle2 (le_of_not_lt hnlt)
          exact hnboth ⟨he.trans this.symm, he⟩
        · exact ih _ h

/-- With every cached priority at `INT16_MAX`, the probe loop exhausts all its
attempts (two RNG draws each) and reports no shard. -/
theorem probeLoop_empty {s : Scheduler} (hp0 : 0 < s.heap_p)
    (hmax : ∀ k, k < s.heap_p → (s.heaps k).prio = INT16_MAX) :
    ∀ (r : Nat) (p : Ptls),
    probeLoop s r p = (none, { p with cursor := p.cursor + 2 * r }) := by
  intro r
  induction r with
  | zero =>
    intro p
    show (none, p) = _
    rfl
  | succ r ih =>
    intro p
    simp only [probeLoop, cong]
    rw [hmax _ (Nat.mod_lt _ hp0), hmax _ (Nat.mod_lt _ hp0)]
    rw [if_neg (lt_irrefl _), if_pos ⟨rfl, rfl⟩, ih]
    have : p.cursor + 1 + 1 + 2 * r = p.cursor + 2 * (r + 1) := by omega
    rw [this]

/-! ## `multiq_deletemin`: functional specification of a successful pop -/

/-- Any successful `multiq_deletemin` pops exactly one task: the multiqueue
stays well formed, the returned task's identity is removed from the enqueued
multiset, its `tid` is the caller's, and immediately before the return its
`tid` was the caller's or `-1`. -/
theorem multiq_deletemin_task_spec :
    ∀ (fuel : Nat) (p : Ptls) (s : Scheduler) {t : Task} {s' : Scheduler} {p' : Ptls},
    mqWF s →
    multiq_deletemin fuel p s = (DmResult.task t, s', p') →
    s'.heap_p = s.heap_p ∧ mqWF s' ∧ t.id ::ₘ mqIds s' = mqIds s ∧
    t.tid = p.tid ∧ ∃ t0 : Task, (t0.tid = p.tid ∨ t0.tid = -1) ∧ t = { t0 with tid := p.tid } := by
  intro fuel
  induction fuel with
  | zero =>
    intro p s t s' p' _ h
    exact absurd h (by simp [multiq_deletemin])
  | succ fuel ih =>
    intro p s t s' p' hwf h
    rw [multiq_deletemin] at h
    rcases hpb : probeLoop s s.heap_p p with ⟨o, p1⟩
    rw [hpb] at h
    cases o with
    | none => exact absurd h (by simp)
    | some rn =>
      have hp0 : 0 < s.heap_p := by
        rcases Nat.eq_zero_or_pos s.heap_p with hz | hp0
        · rw [hz] at hpb
          exact absurd hpb (by simp [probeLoop])
        · exact hp0
      have hrnlt : rn < s.heap_p := probeLoop_some_lt hp0 _ _ hpb
      dsimp only at h
      split at h
      · obtain ⟨c1, c2, c3, c4, c5⟩ := ih p1 s hwf h
        have htid := (probeLoop_tid _ _ hpb).1
        refine ⟨c1, c2, c3, htid ▸ c4, ?_⟩
        obtain ⟨t0, ht0, he⟩ := c5
        exact ⟨t0, by rw [htid] at ht0; exact ht0, by rw [htid] at he; exact he⟩
      · rename_i hguard
        have hwr : shardWF (s.heaps rn) := hwf rn hrnlt
        have hne : (s.heaps rn).prio ≠ INT16_MAX :=
          probeLoop_some_max hp0 (fun k hk => shardWF_prio_le (hwf k hk)) _ _ hpb
        have h0 : 0 < (s.heaps rn).ntasks := by
          rcases Nat.eq_zero_or_pos (s.heaps rn).ntasks with hz | h0
          · exact absurd (hwr.2.1.1 hz) hne
          · exact h0
        obtain ⟨pord, pnt, ppi, pms⟩ := popShard_spec hwr.1 hwr.2.2.1
        have pbd := popShard_bound hwr.1 hwr.2.2.1 hwr.2.2.2
        injection h with h1 hrest
        injection hrest with h2 h3
        injection h1 with h1
        subst h2
        subst h3
        have htid_id : t.id = ((s.heaps rn).tasks 0).id := by
          rw [← h1]
          by_cases hc : ((s.heaps rn).tasks 0).tid = p.tid
          · rw [if_pos hc]
          · rw [if_neg hc]
        refine ⟨rfl, ?_, ?_, ?_, ?_⟩
        · intro k hk
          by_cases hkr : k = rn
          · subst hkr
            show shardWF (Function.update s.heaps k (popShard (s.heaps k)) k)
            rw [Function.update_same]
            exact ⟨pord, ppi, by rw [pnt]; exact Nat.le_trans (Nat.sub_le _ _) hwr.2.2.1, pbd⟩
          · show shardWF (Function.update s.heaps rn (popShard (s.heaps rn)) k)
            rw [Function.update_noteq hkr]
            exact hwf k hk
        · have hupd := mqIds_update s rn (popShard (s.heaps rn)) hrnlt
          rw [pms h0, Multiset.map_cons] at hupd
          rw [htid_id]
          have hcons : mqIds { s with heaps := Function.update s.heaps rn (popShard (s.heaps rn)) } +
              (((s.heaps rn).tasks 0).id ::ₘ
                (msetN (popShard (s.heaps rn)).ntasks (popShard (s.heaps rn)).tasks).map Task.id) =
              (((s.heaps rn).tasks 0).id ::ₘ
                mqIds { s with heaps := Function.update s.heaps rn (popShard (s.heaps rn)) }) +
              (msetN (popShard (s.heaps rn)).ntasks (popShard (s.heaps rn)).tasks).map Task.id := by
            rw [Multiset.cons_add, Multiset.add_cons]
          rw [hcons] at hupd
          exact add_right_cancel hupd
        · rw [← h1]
          by_cases hc : ((s.heaps rn).tasks 0).tid = p.tid
          · rw [if_pos hc]
            exact hc
          · rw [if_neg hc]
        · refine ⟨(s.heaps rn).tasks 0, ?_, ?_⟩
          · rcases not_and_or.mp hguard with hc | hc
            · exact Or.inl (not_not.mp hc)
            · exact Or.inr (not_not.mp hc)
          · rw [← h1]
            by_cases hc : ((s.heaps rn).tasks 0).tid = p.tid
            · rw [if_pos hc, ← hc]
            · rw [if_neg hc]

/-- `multiq_deletemin` preserves heap order and the capacity bound of every
shard, whatever it returns (heap-order hypotheses only). -/
theorem multiq_deletemin_ord_spec :
    ∀ (fuel : Nat) (p : Ptls) (s : Scheduler) {r : DmResult} {s' : Scheduler} {p' : Ptls},
    (∀ k, k < s.heap_p → heapOrd (s.heaps k).tasks (s.heaps k).ntasks ∧
        (s.heaps k).ntasks ≤ tasks_per_heap) →
    multiq_deletemin fuel p s = (r, s', p') →
    s'.heap_p = s.heap_p ∧
    ∀ k, k < s.heap_p → heapOrd (s'.heaps k).tasks (s'.heaps k).ntasks ∧
        (s'.heaps k).ntasks ≤ tasks_per_heap := by
  intro fuel
  induction fuel with
  | zero =>
    intro p s r s' p' hord h
    rw [multiq_deletemin] at h
    injection h with _ hrest
    injection hrest with h2 _
    subst h2
    exact ⟨rfl, hord⟩
  | succ fuel ih =>
    intro p s r s' p' hord h
    rw [multiq_deletemin] at h
    rcases hpb : probeLoop s s.heap_p p with ⟨o, p1⟩
    rw [hpb] at h
    cases o with
    | none =>
      injection h with _ hrest
      injection hrest with h2 _
      subst h2
      exact ⟨rfl, hord⟩
    | some rn =>
      have hp0 : 0 < s.heap_p := by
        rcases Nat.eq_zero_or_pos s.heap_p with hz | hp0
        · rw [hz] at hpb
          exact absurd hpb (by simp [probeLoop])
        · exact hp0
      have hrnlt : rn < s.heap_p := probeLoop_some_lt hp0 _ _ hpb
      dsimp only at h
      split at h
      · exact ih p1 s hord h
      · obtain ⟨hro, hrc⟩ := hord rn hrnlt
        obtain ⟨pord, pnt, _, _⟩ := popShard_spec hro hrc
        injection h with _ hrest
        injection hrest with h2 _
        subst h2
        refine ⟨rfl, ?_⟩
        intro k hk
        by_cases hkr : k = rn
        · subst hkr
          show heapOrd (Function.update s.heaps k (popShard (s.heaps k)) k).tasks
              (Function.update s.heaps k (popShard (s.heaps k)) k).ntasks ∧
            (Function.update s.heaps k (popShard (s.heaps k)) k).ntasks ≤ tasks_per_heap
          rw [Function.update_same]
          exact ⟨pord, by rw [pnt]; exact Nat.le_trans (Nat.sub_le _ _) hrc⟩
        · show heapOrd (Function.update s.heaps rn (popShard (s.heaps rn)) k).tasks
              (Function.update s.heaps rn (popShard (s.heaps rn)) k).ntasks ∧
            (Function.update s.heaps rn (popShard (s.heaps rn)) k).ntasks ≤ tasks_per_heap
          rw [Function.update_noteq hkr]
          exact hord k hk

/-- With every cached priority at `INT16_MAX`, `multiq_deletemin` returns the
`NULL` result after exactly `heap_p` probe attempts (`2·heap_p` RNG draws),
leaving every shard untouched. -/
theorem multiq_deletemin_empty_spec (fuel : Nat) (p : Ptls) (s : Scheduler)
    (hmax : ∀ k, k < s.heap_p → (s.heaps k).prio = INT16_MAX) :
    multiq_deletemin (fuel + 1) p s =
      (DmResult.empty, s, { p with cursor := p.cursor + 2 * s.heap_p }) := by
  rw [multiq_deletemin]
  rcases Nat.eq_zero_or_pos s.heap_p with hz | hp0
  · rw [hz]
    rfl
  · rw [probeLoop_empty hp0 hmax s.heap_p p]

/-! ## `multiq_insert`: branch characterisations and specification -/

theorem multiq_insert_full {task : Task} {priority : Int} {p : Ptls} {s : Scheduler}
    (h : tasks_per_heap ≤ (s.heaps ((cong s.heap_p p).1)).ntasks) :
    multiq_insert task priority p s = (-1, s, (cong s.heap_p p).2) := by
  simp only [multiq_insert]
  rw [if_pos h]

theorem multiq_insert_ok {task : Task} {priority : Int} {p : Ptls} {s : Scheduler}
    (h : (s.heaps ((cong s.heap_p p).1)).ntasks < tasks_per_heap) :
    multiq_insert task priority p s =
      (0,
        { s with heaps := Function.update s.heaps ((cong s.heap_p p).1) (pushShard (s.heaps ((cong s.heap_p p).1)) { task with prio := priority }) },
        (cong s.heap_p p).2) := by
  simp only [multiq_insert]
  rw [if_neg (not_le.mpr h)]

/-- A `multiq_insert` preserves well-formedness; a successful one adds exactly
the inserted task's identity to the enqueued multiset, and a failed one
leaves the whole multiqueue unchanged. -/
theorem multiq_insert_spec (task : Task) (priority : Int) (p : Ptls) (s : Scheduler)
    (hp0 : 0 < s.heap_p) (hwf : mqWF s) (hpri : priority ≤ INT16_MAX) :
    (multiq_insert task priority p s).2.1.heap_p = s.heap_p ∧
    mqWF (multiq_insert task priority p s).2.1 ∧
    ((multiq_insert task priority p s).1 = 0 →
      mqIds (multiq_insert task priority p s).2.1 = task.id ::ₘ mqIds s) ∧
    ((multiq_insert task priority p s).1 ≠ 0 → (multiq_insert task priority p s).2.1 = s) := by
  have hrnlt : (cong s.heap_p p).1 < s.heap_p := Nat.mod_lt _ hp0
  by_cases hfull : tasks_per_heap ≤ (s.heaps ((cong s.heap_p p).1)).ntasks
  · rw [multiq_insert_full hfull]
    refine ⟨rfl, hwf, ?_, fun _ => rfl⟩
    intro h0
    norm_num at h0
  · rw [multiq_insert_ok (not_le.mp hfull)]
    have hwr := hwf _ hrnlt
    obtain ⟨pord, pms⟩ := pushShard_spec { task with prio := priority } hwr.1
    have ppi := pushShard_prioInv { task with prio := priority } hwr.1 hwr.2.1 hpri
    have pbd := pushShard_bound { task with prio := priority } hwr.1 hwr.2.2.2 hpri
    refine ⟨rfl, ?_, ?_, ?_⟩
    · intro k hk
      by_cases hkr : k = (cong s.heap_p p).1
      · show shardWF (Function.update s.heaps ((cong s.heap_p p).1)
          (pushShard (s.heaps ((cong s.heap_p p).1)) { task with prio := priority }) k)
        rw [hkr, Function.update_same]
        refine ⟨pord, ppi, ?_, pbd⟩
        show (pushShard (s.heaps ((cong s.heap_p p).1))
          { task with prio := priority }).ntasks ≤ tasks_per_heap
        have hnt : (pushShard (s.heaps ((cong s.heap_p p).1))
            { task with prio := priority }).ntasks =
            (s.heaps ((cong s.heap_p p).1)).ntasks + 1 := rfl
        rw [hnt]
        omega
      · show shardWF (Function.update s.heaps ((cong s.heap_p p).1)
          (pushShard (s.heaps ((cong s.heap_p p).1)) { task with prio := priority }) k)
        rw [Function.update_noteq hkr]
        exact hwf k hk
    · intro _
      have hupd := mqIds_update s ((cong s.heap_p p).1)
        (pushShard (s.heaps ((cong s.heap_p p).1)) { task with prio := priority }) hrnlt
      rw [pms, Multiset.map_cons] at hupd
      have hsw : mqIds s + ((({ task with prio := priority } : Task).id) ::ₘ
          (msetN (s.heaps ((cong s.heap_p p).1)).ntasks
            (s.heaps ((cong s.heap_p p).1)).tasks).map Task.id) =
          (task.id ::ₘ mqIds s) +
          ((msetN (s.heaps ((cong s.heap_p p).1)).ntasks
            (s.heaps ((cong s.heap_p p).1)).tasks).map Task.id) := by
        rw [Multiset.cons_add, Multiset.add_cons]
      rw [hsw] at hupd
      exact add_right_cancel hupd
    · intro hne
      exact absurd rfl hne

/-- A returned task's `tid` is the caller's, and was the caller's or `-1`
just before the return: pure branch structure of `multiq_deletemin`, no
well-formedness needed. -/
theorem multiq_deletemin_tid_spec :
    ∀ (fuel : Nat) (p : Ptls) (s : Scheduler) {t : Task} {s' : Scheduler} {p' : Ptls},
    multiq_deletemin fuel p s = (DmResult.task t, s', p') →
    t.tid = p.tid ∧ ∃ t0 : Task, (t0.tid = p.tid ∨ t0.tid = -1) ∧ t = { t0 with tid := p.tid } := by
  intro fuel
  induction fuel with
  | zero =>
    intro p s t s' p' h
    exact absurd h (by simp [multiq_deletemin])
  | succ fuel ih =>
    intro p s t s' p' h
    rw [multiq_deletemin] at h
    rcases hpb : probeLoop s s.heap_p p with ⟨o, p1⟩
    rw [hpb] at h
    cases o with
    | none => exact absurd h (by simp)
    | some rn =>
      dsimp only at h
      split at h
      · obtain ⟨c4, t0, ht0, he⟩ := ih p1 s h
        have htid := (probeLoop_tid _ _ hpb).1
        rw [htid] at c4 ht0 he
        exact ⟨c4, t0, ht0, he⟩
      · rename_i hguard
        injection h with h1 _
        injection h1 with h1
        refine ⟨?_, (s.heaps rn).tasks 0, ?_, ?_⟩
        · rw [← h1]
          by_cases hc : ((s.heaps rn).tasks 0).tid = p.tid
          · rw [if_pos hc]
            exact hc
          · rw [if_neg hc]
        · rcases not_and_or.mp hguard with hc | hc
          · exact Or.inl (not_not.mp hc)
          · exact Or.inr (not_not.mp hc)
        · rw [← h1]
          by_cases hc : ((s.heaps rn).tasks 0).tid = p.tid
          · rw [if_pos hc, ← hc]
          · rw [if_neg hc]

/-- A `multiq_deletemin` that does not return a task leaves the scheduler
untouched. -/
theorem multiq_deletemin_untouched :
    ∀ (fuel : Nat) (p : Ptls) (s : Scheduler) {r : DmResult} {s' : Scheduler} {p' : Ptls},
    multiq_deletemin fuel p s = (r, s', p') →
    (∀ t : Task, r ≠ DmResult.task t) → s' = s := by
  intro fuel
  induction fuel with
  | zero =>
    intro p s r s' p' h _
    rw [multiq_deletemin] at h
    injection h with _ hrest
    injection hrest with h2 _
    exact h2.symm
  | succ fuel ih =>
    intro p s r s' p' h hnt
    rw [multiq_deletemin] at h
    rcases hpb : probeLoop s s.heap_p p with ⟨o, p1⟩
    rw [hpb] at h
    cases o with
    | none =>
      injection h with _ hrest
      injection hrest with h2 _
      exact h2.symm
    | some rn =>
      dsimp only at h
      split at h
      · exact ih p1 s h hnt
      · injection h with h1 _
        exact absurd h1.symm (hnt _)

/-! ## Snapshot and the sleep controller -/

theorem snapshotFrom_iff (s : Scheduler) :
    ∀ (r i : Nat), s.heap_p ≤ i + r →
    (snapshotFrom s i r = true ↔ ∀ k, i ≤ k → k < s.heap_p → (s.heaps k).ntasks = 0) := by
  intro r
  induction r with
  | zero =>
    intro i hle
    simp only [snapshotFrom]
    constructor
    · intro _ k hik hk
      omega
    · intro _
      trivial
  | succ r ih =>
    intro i hle
    simp only [snapshotFrom]
    by_cases hi : i < s.heap_p
    · rw [if_pos hi]
      by_cases hz : (s.heaps i).ntasks ≠ 0
      · rw [if_pos hz]
        constructor
        · intro h
          cases h
        · intro hall
          exact absurd (hall i (le_refl i) hi) hz
      · rw [if_neg hz]
        rw [ih (i + 1) (by omega)]
        constructor
        · intro hall k hik hk
          rcases Nat.eq_or_lt_of_le hik with he | hlt
          · rw [← he]
            exact not_not.mp hz
          · exact hall k hlt hk
        · intro hall k hik hk
          exact hall k (by omega) hk
    · rw [if_neg hi]
      constructor
      · intro _ k hik hk
        omega
      · intro _
        trivial

theorem snapshot_iff (s : Scheduler) :
    snapshot s = true ↔ ∀ k, k < s.heap_p → (s.heaps k).ntasks = 0 := by
  unfold snapshot
  rw [snapshotFrom_iff s s.heap_p 0 (by omega)]
  constructor
  · intro h k hk
    exact h k (Nat.zero_le k) hk
  · intro h k _ hk
    exact h k hk

/-! ## Round-trip bookkeeping (`insertAll` / `extractN`) -/

theorem shardWF_of_empty {h : taskheap} (h0 : h.ntasks = 0) (hp : h.prio = INT16_MAX) :
    shardWF h := by
  refine ⟨?_, ⟨fun _ => hp, fun hpos => absurd (h0 ▸ hpos) (lt_irrefl 0)⟩, ?_, ?_⟩
  · intro i c hc _ _
    rw [h0] at hc
    exact absurd hc (Nat.not_lt_zero c)
  · rw [h0]
    exact Nat.zero_le _
  · intro i hi
    rw [h0] at hi
    exact absurd hi (Nat.not_lt_zero i)

theorem mqIds_empty {s : Scheduler} (h : ∀ k, k < s.heap_p → (s.heaps k).ntasks = 0) :
    mqIds s = 0 := by
  unfold mqIds
  refine Finset.sum_eq_zero ?_
  intro k hk
  rw [h k (Finset.mem_range.mp hk), msetN_zero]
  rfl

/-- Inserting a list of `int16`-priority tasks, when every insert reports
success, adds exactly their identities to the enqueued multiset and keeps the
multiqueue well formed. -/
theorem insertAll_spec :
    ∀ (ts : List Task) (p : Ptls) (s : Scheduler),
    0 < s.heap_p → mqWF s → (∀ t ∈ ts, t.prio ≤ INT16_MAX) →
    (∀ r ∈ (insertAll ts p s).1, r = 0) →
    (insertAll ts p s).2.1.heap_p = s.heap_p ∧ mqWF (insertAll ts p s).2.1 ∧
    mqIds (insertAll ts p s).2.1 = (↑(ts.map Task.id) : Multiset Nat) + mqIds s := by
  intro ts
  induction ts with
  | nil =>
    intro p s _ hwf _ _
    refine ⟨rfl, hwf, ?_⟩
    rw [show (insertAll [] p s).2.1 = s from rfl]
    simp
  | cons t ts ih =>
    intro p s hp0 hwf hpri hres
    have hunf1 : (insertAll (t :: ts) p s).1 =
        (multiq_insert t t.prio p s).1 ::
        (insertAll ts (multiq_insert t t.prio p s).2.2 (multiq_insert t t.prio p s).2.1).1 := rfl
    have hunf2 : (insertAll (t :: ts) p s).2.1 =
        (insertAll ts (multiq_insert t t.prio p s).2.2 (multiq_insert t t.prio p s).2.1).2.1 := rfl
    obtain ⟨e1, e2, e3, _⟩ :=
      multiq_insert_spec t t.prio p s hp0 hwf (hpri t (List.mem_cons_self t ts))
    have hr0 : (multiq_insert t t.prio p s).1 = 0 :=
      hres _ (by rw [hunf1]; exact List.mem_cons_self _ _)
    have hresT : ∀ r ∈ (insertAll ts (multiq_insert t t.prio p s).2.2
        (multiq_insert t t.prio p s).2.1).1, r = 0 :=
      fun r hr => hres r (by rw [hunf1]; exact List.mem_cons_of_mem _ hr)
    obtain ⟨f1, f2, f3⟩ := ih (multiq_insert t t.prio p s).2.2
      (multiq_insert t t.prio p s).2.1 (by rw [e1]; exact hp0) e2
      (fun u hu => hpri u (List.mem_cons_of_mem t hu)) hresT
    refine ⟨by rw [hunf2, f1, e1], by rw [hunf2]; exact f2, ?_⟩
    rw [hunf2, f3, e3 hr0, List.map_cons, ← Multiset.cons_coe,
      Multiset.add_cons, Multiset.cons_add]

/-- Extracting `n` times, when every extraction reports a task, removes
exactly the extracted identities from the enqueued multiset. -/
theorem extractN_spec :
    ∀ (n : Nat) (fuel : Nat) (p : Ptls) (s : Scheduler),
    mqWF s →
    (∀ d ∈ (extractN n fuel p s).1, DmResult.isTask d = true) →
    (extractN n fuel p s).2.1.heap_p = s.heap_p ∧ mqWF (extractN n fuel p s).2.1 ∧
    (↑((extractedTasks (extractN n fuel p s).1).map Task.id) : Multiset Nat) +
      mqIds (extractN n fuel p s).2.1 = mqIds s ∧
    (extractedTasks (extractN n fuel p s).1).length = n := by
  intro n
  induction n with
  | zero =>
    intro fuel p s hwf _
    exact ⟨rfl, hwf, by simp [extractN, extractedTasks], rfl⟩
  | succ n ih =>
    intro fuel p s hwf hext
    have hunf1 : (extractN (n + 1) fuel p s).1 =
        (multiq_deletemin fuel p s).1 ::
        (extractN n fuel (multiq_deletemin fuel p s).2.2 (multiq_deletemin fuel p s).2.1).1 := rfl
    have hunf2 : (extractN (n + 1) fuel p s).2.1 =
        (extractN n fuel (multiq_deletemin fuel p s).2.2 (multiq_deletemin fuel p s).2.1).2.1 := rfl
    have hhead : DmResult.isTask (multiq_deletemin fuel p s).1 = true :=
      hext _ (by rw [hunf1]; exact List.mem_cons_self _ _)
    rcases a1 : (multiq_deletemin fuel p s).1 with t | _ | _
    · have heq : multiq_deletemin fuel p s =
          (DmResult.task t, (multiq_deletemin fuel p s).2.1, (multiq_deletemin fuel p s).2.2) := by
        rw [← a1]
      obtain ⟨c1, c2, c3, _, _⟩ := multiq_deletemin_task_spec fuel p s hwf heq
      have hextT : ∀ d ∈ (extractN n fuel (multiq_deletemin fuel p s).2.2
          (multiq_deletemin fuel p s).2.1).1, DmResult.isTask d = true :=
        fun d hd => hext d (by rw [hunf1]; exact List.mem_cons_of_mem _ hd)
      obtain ⟨f1, f2, f3, f4⟩ := ih fuel (multiq_deletemin fuel p s).2.2
        (multiq_deletemin fuel p s).2.1 c2 hextT
      have hel : extractedTasks ((extractN (n + 1) fuel p s).1) =
          t :: extractedTasks (extractN n fuel (multiq_deletemin fuel p s).2.2
            (multiq_deletemin fuel p s).2.1).1 := by
        rw [hunf1, a1]
        rfl
      refine ⟨by rw [hunf2, f1, c1], by rw [hunf2]; exact f2, ?_, ?_⟩
      · rw [hel, hunf2, List.map_cons, ← Multiset.cons_coe, Multiset.cons_add, ← c3]
        rw [← f3]
      · rw [hel, List.length_cons, f4]
    · rw [a1] at hhead
      cases hhead
    · rw [a1] at hhead
      cases hhead

/-! ## Claim theorems -/

/-- C1, counterexample: the claim fails as stated.  On the sticky path
`get_next_task` ignores the result of the CAS on `task->tid`
(partr.c:370-372): a sticky task whose `owner_tid` is another worker's id
(here 7) is returned to worker 5 with `owner_tid` still 7 — neither the
worker's id nor −1 before the return, and not the worker's id after it. -/
theorem C1_counterexample :
    (get_next_task (some alienTask) 1 ptls5 emptyMQ).1 = DmResult.task alienTask ∧
    alienTask.tid ≠ ptls5.tid ∧ alienTask.tid ≠ -1 := by
  refine ⟨by decide, by decide, by decide⟩

/-- C1, amended: a task returned through `multiq_deletemin` had `owner_tid`
equal to the worker's id or to −1 immediately before the return and carries
the worker's id after it; through the sticky hook the same holds provided the
hook's task had `owner_tid` equal to the worker's id or −1, while a sticky
task owned by another worker is returned with `owner_tid` unchanged (the CAS
result is ignored on that path). -/
theorem C1_next_owner (sticky : Option Task) (fuel : Nat) (p : Ptls) (s : Scheduler) :
    (∀ t : Task, sticky = some t → (t.tid = p.tid ∨ t.tid = -1) →
      (get_next_task sticky fuel p s).1 = DmResult.task { t with tid := p.tid }) ∧
    (∀ t : Task, sticky = some t → t.tid ≠ p.tid → t.tid ≠ -1 →
      (get_next_task sticky fuel p s).1 = DmResult.task t) ∧
    (sticky = none → ∀ (t : Task) (s' : Scheduler) (p' : Ptls),
      get_next_task sticky fuel p s = (DmResult.task t, s', p') →
      t.tid = p.tid ∧
      ∃ t0 : Task, (t0.tid = p.tid ∨ t0.tid = -1) ∧ t = { t0 with tid := p.tid }) := by
  refine ⟨?_, ?_, ?_⟩
  · rintro t rfl hor
    simp only [get_next_task]
    by_cases hp : t.tid = p.tid
    · rw [if_neg (not_not_intro hp)]
      have he : ({ t with tid := p.tid } : Task) = t := by
        rw [← hp]
      rw [he]
    · rcases hor with he | he
      · exact absurd he hp
      · rw [if_pos hp, if_pos he]
  · rintro t rfl hne hn1
    simp only [get_next_task]
    rw [if_pos hne, if_neg hn1]
  · rintro rfl t s' p' h
    exact multiq_deletemin_tid_spec fuel p s h

/-- C1, witness for the amended theorem at concrete inputs. -/
theorem C1_next_owner_witness :
    (get_next_task (some sampleTask) 1 ptls0 emptyMQ).1 =
      DmResult.task { sampleTask with tid := ptls0.tid } ∧
    ((⟨0, 5, 0⟩ : Task).tid = ptls0.tid ∧
      ∃ t0 : Task, (t0.tid = ptls0.tid ∨ t0.tid = -1) ∧
        (⟨0, 5, 0⟩ : Task) = { t0 with tid := ptls0.tid }) :=
  ⟨(C1_next_owner (some sampleTask) 1 ptls0 emptyMQ).1 sampleTask rfl (Or.inr rfl),
    (C1_next_owner none 1 ptls0 oneMQ).2.2 rfl ⟨0, 5, 0⟩
      (get_next_task none 1 ptls0 oneMQ).2.1 (get_next_task none 1 ptls0 oneMQ).2.2
      (by rw [← (show (get_next_task none 1 ptls0 oneMQ).1 = DmResult.task ⟨0, 5, 0⟩
        from by decide)])⟩

/-- C2: for every shard in heap order (d = 8, within capacity),
`multiq_insert` and `multiq_deletemin` (whose `sift_down` recurses on the
first strictly improving child, partr.c:99-114) leave every shard in heap
order over `slots[0..ntasks)`. -/
theorem C2_heap_order (task : Task) (priority : Int) (fuel : Nat) (p : Ptls) (s : Scheduler)
    (H : ∀ k, k < s.heap_p → heapOrd (s.heaps k).tasks (s.heaps k).ntasks ∧
      (s.heaps k).ntasks ≤ tasks_per_heap) :
    (∀ k, k < s.heap_p →
      heapOrd ((multiq_insert task priority p s).2.1.heaps k).tasks
        ((multiq_insert task priority p s).2.1.heaps k).ntasks) ∧
    (∀ (r : DmResult) (s' : Scheduler) (p' : Ptls),
      multiq_deletemin fuel p s = (r, s', p') →
      ∀ k, k < s.heap_p → heapOrd (s'.heaps k).tasks (s'.heaps k).ntasks) := by
  constructor
  · intro k hk
    have hp0 : 0 < s.heap_p := Nat.lt_of_le_of_lt (Nat.zero_le k) hk
    by_cases hfull : tasks_per_heap ≤ (s.heaps ((cong s.heap_p p).1)).ntasks
    · rw [multiq_insert_full hfull]
      exact (H k hk).1
    · rw [multiq_insert_ok (not_le.mp hfull)]
      have hrnlt : (cong s.heap_p p).1 < s.heap_p := Nat.mod_lt _ hp0
      by_cases hkr : k = (cong s.heap_p p).1
      · show heapOrd (Function.update s.heaps ((cong s.heap_p p).1)
            (pushShard (s.heaps ((cong s.heap_p p).1)) { task with prio := priority }) k).tasks
          (Function.update s.heaps ((cong s.heap_p p).1)
            (pushShard (s.heaps ((cong s.heap_p p).1)) { task with prio := priority }) k).ntasks
        rw [hkr, Function.update_same]
        exact (pushShard_spec { task with prio := priority } (H _ hrnlt).1).1
      · show heapOrd (Function.update s.heaps ((cong s.heap_p p).1)
            (pushShard (s.heaps ((cong s.heap_p p).1)) { task with prio := priority }) k).tasks
          (Function.update s.heaps ((cong s.heap_p p).1)
            (pushShard (s.heaps ((cong s.heap_p p).1)) { task with prio := priority }) k).ntasks
        rw [Function.update_noteq hkr]
        exact (H k hk).1
  · intro r s' p' h k hk
    exact ((multiq_deletemin_ord_spec fuel p s H h).2 k hk).1

/-- C2, witness at a concrete one-task multiqueue. -/
theorem C2_heap_order_witness :
    (∀ k, k < oneMQ.heap_p → heapOrd (oneMQ.heaps k).tasks (oneMQ.heaps k).ntasks ∧
      (oneMQ.heaps k).ntasks ≤ tasks_per_heap) ∧
    ((∀ k, k < oneMQ.heap_p →
      heapOrd ((multiq_insert sampleTask 3 ptls0 oneMQ).2.1.heaps k).tasks
        ((multiq_insert sampleTask 3 ptls0 oneMQ).2.1.heaps k).ntasks) ∧
    (∀ (r : DmResult) (s' : Scheduler) (p' : Ptls),
      multiq_deletemin 1 ptls0 oneMQ = (r, s', p') →
      ∀ k, k < oneMQ.heap_p → heapOrd (s'.heaps k).tasks (s'.heaps k).ntasks)) := by
  have hH : ∀ k, k < oneMQ.heap_p → heapOrd (oneMQ.heaps k).tasks (oneMQ.heaps k).ntasks ∧
      (oneMQ.heaps k).ntasks ≤ tasks_per_heap := by
    intro k _
    refine ⟨fun i c _ _ _ => ?_, ?_⟩
    · by_cases hk : k = 0 <;> simp [oneMQ, oneShard, emptyShard, hk]
    · by_cases hk : k = 0 <;> simp [oneMQ, oneShard, emptyShard, hk, tasks_per_heap]
  exact ⟨hH, C2_heap_order sampleTask 3 1 ptls0 oneMQ hH⟩

/-- C3: for a well-formed multiqueue, the cached `min_prio` invariant
(`prio == slots[0].priority` when non-empty, `INT16_MAX` when empty) holds
for every shard after a completed `multiq_insert` (of an `int16` priority)
and after any completed `multiq_deletemin`. -/
theorem C3_min_prio (task : Task) (priority : Int) (fuel : Nat) (p : Ptls) (s : Scheduler)
    (hwf : mqWF s) (hpri : priority ≤ INT16_MAX) :
    (∀ k, k < s.heap_p → prioInv ((multiq_insert task priority p s).2.1.heaps k)) ∧
    (∀ (r : DmResult) (s' : Scheduler) (p' : Ptls),
      multiq_deletemin fuel p s = (r, s', p') →
      ∀ k, k < s.heap_p → prioInv (s'.heaps k)) := by
  constructor
  · intro k hk
    have hp0 : 0 < s.heap_p := Nat.lt_of_le_of_lt (Nat.zero_le k) hk
    obtain ⟨e1, e2, _, _⟩ := multiq_insert_spec task priority p s hp0 hwf hpri
    exact (e2 k (by rw [e1]; exact hk)).2.1
  · intro r s' p' h k hk
    rcases r with t | _ | _
    · obtain ⟨c1, c2, _⟩ := multiq_deletemin_task_spec fuel p s hwf h
      exact (c2 k (by rw [c1]; exact hk)).2.1
    · rw [multiq_deletemin_untouched fuel p s h (fun t => by simp)]
      exact (hwf k hk).2.1
    · rw [multiq_deletemin_untouched fuel p s h (fun t => by simp)]
      exact (hwf k hk).2.1

/-- C3, witness at a concrete empty multiqueue. -/
theorem C3_min_prio_witness :
    mqWF emptyMQ ∧ (7 : Int) ≤ INT16_MAX ∧
    ((∀ k, k < emptyMQ.heap_p →
      prioInv ((multiq_insert sampleTask 7 ptls0 emptyMQ).2.1.heaps k)) ∧
    (∀ (r : DmResult) (s' : Scheduler) (p' : Ptls),
      multiq_deletemin 1 ptls0 emptyMQ = (r, s', p') →
      ∀ k, k < emptyMQ.heap_p → prioInv (s'.heaps k))) := by
  have hwf : mqWF emptyMQ := fun k _ => shardWF_of_empty rfl rfl
  exact ⟨hwf, by decide, C3_min_prio sampleTask 7 1 ptls0 emptyMQ hwf (by decide)⟩

/-- C4: `multiq_insert` into a shard with `ntasks < TASKS_PER_HEAP` succeeds
and grows it by one task (so a shard may reach exactly `TASKS_PER_HEAP`),
while an insert drawn onto a full shard fails (the C code raises the
"multiq insertion failed" `jl_error` and returns −1) and leaves the whole
multiqueue — in particular the full shard, still in heap order — unchanged. -/
theorem C4_capacity (task : Task) (priority : Int) (p : Ptls) (s : Scheduler) :
    ((s.heaps ((cong s.heap_p p).1)).ntasks < tasks_per_heap →
      (multiq_insert task priority p s).1 = 0 ∧
      ((multiq_insert task priority p s).2.1.heaps ((cong s.heap_p p).1)).ntasks =
        (s.heaps ((cong s.heap_p p).1)).ntasks + 1) ∧
    ((s.heaps ((cong s.heap_p p).1)).ntasks = tasks_per_heap →
      (multiq_insert task priority p s).1 = -1 ∧
      (multiq_insert task priority p s).2.1 = s ∧
      (heapOrd (s.heaps ((cong s.heap_p p).1)).tasks
          (s.heaps ((cong s.heap_p p).1)).ntasks →
        heapOrd ((multiq_insert task priority p s).2.1.heaps ((cong s.heap_p p).1)).tasks
          ((multiq_insert task priority p s).2.1.heaps ((cong s.heap_p p).1)).ntasks)) := by
  constructor
  · intro hlt
    rw [multiq_insert_ok hlt]
    refine ⟨rfl, ?_⟩
    show (Function.update s.heaps ((cong s.heap_p p).1)
        (pushShard (s.heaps ((cong s.heap_p p).1)) { task with prio := priority })
        ((cong s.heap_p p).1)).ntasks = _
    rw [Function.update_same]
    rfl
  · intro heq
    rw [multiq_insert_full (le_of_eq heq.symm)]
    exact ⟨rfl, rfl, fun h => h⟩

/-- C4, witness: a successful insert into an empty shard and a failing insert
into a full shard. -/
theorem C4_capacity_witness :
    ((emptyMQ.heaps ((cong emptyMQ.heap_p ptls0).1)).ntasks < tasks_per_heap ∧
      (multiq_insert sampleTask 3 ptls0 emptyMQ).1 = 0 ∧
      ((multiq_insert sampleTask 3 ptls0 emptyMQ).2.1.heaps
        ((cong emptyMQ.heap_p ptls0).1)).ntasks =
        (emptyMQ.heaps ((cong emptyMQ.heap_p ptls0).1)).ntasks + 1) ∧
    ((fullMQ.heaps ((cong fullMQ.heap_p ptls0).1)).ntasks = tasks_per_heap ∧
      (multiq_insert sampleTask 3 ptls0 fullMQ).1 = -1 ∧
      (multiq_insert sampleTask 3 ptls0 fullMQ).2.1 = fullMQ) := by
  refine ⟨⟨by decide, (C4_capacity sampleTask 3 ptls0 emptyMQ).1 (by decide)⟩,
    ⟨by decide, ?_, ?_⟩⟩
  · exact ((C4_capacity sampleTask 3 ptls0 fullMQ).2 (by decide)).1
  · exact ((C4_capacity sampleTask 3 ptls0 fullMQ).2 (by decide)).2.1

/-- C5: when every shard is empty (every cached `min_prio` is `INT16_MAX`),
`multiq_deletemin` exhausts its `heap_p` probe attempts (each drawing two
shard indices, hence the RNG cursor advances by exactly `2·heap_p`), returns
the `NULL` result, and leaves every shard unchanged. -/
theorem C5_empty_none (fuel : Nat) (p : Ptls) (s : Scheduler)
    (h : ∀ k, k < s.heap_p → (s.heaps k).ntasks = 0 ∧ (s.heaps k).prio = INT16_MAX) :
    multiq_deletemin (fuel + 1) p s =
      (DmResult.empty, s, { p with cursor := p.cursor + 2 * s.heap_p }) :=
  multiq_deletemin_empty_spec fuel p s (fun k hk => (h k hk).2)

/-- C5, witness at a concrete empty two-shard multiqueue. -/
theorem C5_empty_none_witness :
    (∀ k, k < emptyMQ.heap_p →
      (emptyMQ.heaps k).ntasks = 0 ∧ (emptyMQ.heaps k).prio = INT16_MAX) ∧
    multiq_deletemin 1 ptls0 emptyMQ =
      (DmResult.empty, emptyMQ, { ptls0 with cursor := ptls0.cursor + 2 * emptyMQ.heap_p }) :=
  ⟨by decide, C5_empty_none 0 ptls0 emptyMQ (by decide)⟩

/-- C6: with `SLEEP_THRESHOLD` equal (case-insensitively) to the literal
`"infinite"`, initialisation sets `sleep_threshold = 0`; then
`sleep_check_after_threshold` always returns 0 without touching
`*start_cycles` or the controller, and one iteration of the
`jl_task_get_next` loop can never reach the condition-variable wait. -/
theorem C6_infinite (cp : List Char) (dflt : Nat)
    (hcp : cp.map Char.toLower = infinite_chars) :
    init_sleep_threshold (some cp) dflt = 0 ∧
    (∀ (start_cycles now : Nat) (st : Int) (s : Scheduler),
      sleep_check_after_threshold 0 start_cycles now st s = some (false, start_cycles, st)) ∧
    (∀ (sticky1 sticky2 sticky3 sticky4 : Option Task) (uvw : Nat) (uvl : Bool)
      (now fuel spin_count start_cycles : Nat) (st : Int) (p : Ptls) (s : Scheduler),
      IterStep.parked (task_get_next_iter 0 sticky1 sticky2 sticky3 sticky4 uvw uvl now fuel
        spin_count start_cycles st p s) = false) := by
  refine ⟨?_, ?_, ?_⟩
  · show (if (cp.take 8).map Char.toLower = infinite_chars then 0 else strtoull10 cp) = 0
    have hlen : cp.length = 8 := by
      have h := congrArg List.length hcp
      rw [List.length_map] at h
      exact h
    have htake : cp.take 8 = cp := List.take_of_length_le (le_of_eq hlen)
    rw [htake, hcp, if_pos rfl]
  · intro start_cycles now st s
    unfold sleep_check_after_threshold
    rw [if_neg (fun h => h rfl)]
  · intro s1 s2 s3 s4 uvw uvl now fuel spin_count start_cycles st p s
    have hsc : ∀ (s' : Scheduler),
        sleep_check_after_threshold 0 start_cycles now st s' =
          some (false, start_cycles, st) := by
      intro s'
      unfold sleep_check_after_threshold
      rw [if_neg (fun h => h rfl)]
    unfold task_get_next_iter
    dsimp only
    split
    · rfl
    · split
      · split
        · rfl
        · rw [hsc]
          rfl
      · rw [hsc]
        rfl

/-- C6, witness: the literal `"infinite"` itself. -/
theorem C6_infinite_witness :
    infinite_chars.map Char.toLower = infinite_chars ∧
    init_sleep_threshold (some infinite_chars) 4300000000 = 0 := by
  have h : infinite_chars.map Char.toLower = infinite_chars := by decide
  exact ⟨h, (C6_infinite infinite_chars 4300000000 h).1⟩

/-- C7: sequentially (no concurrent state change), `sleep_check_now` called
with the controller at `not_sleeping` returns 1 iff every shard's `ntasks`
is 0, leaving the controller at `sleeping` on yes and back at
`not_sleeping` on no. -/
theorem C7_sleep_check (st : Int) (s : Scheduler) (h : st = not_sleeping) :
    ((∀ k, k < s.heap_p → (s.heaps k).ntasks = 0) →
      sleep_check_now st s = some (true, sleeping)) ∧
    ((¬ ∀ k, k < s.heap_p → (s.heaps k).ntasks = 0) →
      sleep_check_now st s = some (false, not_sleeping)) := by
  subst h
  unfold sleep_check_now
  rw [if_neg (by decide : ¬ (not_sleeping = checking_for_sleeping)), if_pos rfl]
  constructor
  · intro hall
    rw [if_pos ((snapshot_iff s).mpr hall)]
  · intro hnall
    rw [if_neg (fun hsnap => hnall ((snapshot_iff s).mp hsnap))]

/-- C7, witness: an all-empty and a non-empty multiqueue. -/
theorem C7_sleep_check_witness :
    sleep_check_now not_sleeping emptyMQ = some (true, sleeping) ∧
    sleep_check_now not_sleeping oneMQ = some (false, not_sleeping) :=
  ⟨(C7_sleep_check not_sleeping emptyMQ rfl).1 (by decide),
    (C7_sleep_check not_sleeping oneMQ rfl).2 (by decide)⟩

/-- C8, counterexample: the claim fails as stated, twice over.  With
`sleep_threshold = 0` the exchange to `not_sleeping` happens but no park
slot at all is signalled even though the previous state was `sleeping`
(partr.c:342 also tests `sleep_threshold`); and even with a nonzero
threshold the caller's own slot is skipped (`wake_thread`'s
`ptls->tid != tid` test, partr.c:326), so not every worker's slot is
signalled. -/
theorem C8_counterexample :
    (jl_wakeup_thread 0 1 2 0 sleeping = (not_sleeping, []) ∧ sleeping ≠ not_sleeping) ∧
    (jl_wakeup_thread 0 1 2 1 sleeping = (not_sleeping, [1]) ∧
      ¬ ∀ w : Nat, w < 2 → w ∈ (jl_wakeup_thread 0 1 2 1 sleeping).2) := by
  refine ⟨⟨by decide, by decide⟩, by decide, by decide⟩

/-- C8, amended: when the caller's tid differs from the target's, the
controller is exchanged to `not_sleeping` (active); if additionally
`sleep_threshold` is nonzero and the previous state was not already active,
the park slot of every worker other than the caller is signalled (and the
caller's own slot is never signalled). -/
theorem C8_wakeup (ptls_tid tid : Int) (n_threads : Nat) (sleep_threshold : Nat) (st : Int)
    (h : tid ≠ ptls_tid) :
    (jl_wakeup_thread ptls_tid tid n_threads sleep_threshold st).1 = not_sleeping ∧
    (sleep_threshold ≠ 0 → st ≠ not_sleeping →
      ∀ w : Nat, w < n_threads → ptls_tid ≠ (w : Int) →
        w ∈ (jl_wakeup_thread ptls_tid tid n_threads sleep_threshold st).2) ∧
    (∀ w : Nat, w ∈ (jl_wakeup_thread ptls_tid tid n_threads sleep_threshold st).2 →
      ptls_tid ≠ (w : Int)) := by
  unfold jl_wakeup_thread
  rw [if_pos h]
  by_cases hc : sleep_threshold ≠ 0 ∧ st ≠ not_sleeping
  · rw [if_pos hc]
    refine ⟨rfl, ?_, ?_⟩
    · intro _ _ w hw hown
      simp only [List.mem_filter, List.mem_range]
      exact ⟨hw, by simp [wake_thread, hown]⟩
    · intro w hwmem
      simp only [List.mem_filter] at hwmem
      have := hwmem.2
      simpa [wake_thread] using this
  · rw [if_neg hc]
    refine ⟨rfl, ?_, fun w hw => absurd hw (List.not_mem_nil w)⟩
    intro h1 h2
    exact absurd ⟨h1, h2⟩ hc

/-- C8, witness for the amended theorem. -/
theorem C8_wakeup_witness :
    (jl_wakeup_thread 0 1 2 1 sleeping).1 = not_sleeping ∧
    (1 : Nat) ∈ (jl_wakeup_thread 0 1 2 1 sleeping).2 :=
  ⟨(C8_wakeup 0 1 2 1 sleeping (by decide)).1,
    (C8_wakeup 0 1 2 1 sleeping (by decide)).2.1 (by decide) (by decide) 1 (by decide)
      (by decide)⟩

/-- Evaluation helper: inserting `sampleTask` into the empty two-shard
multiqueue with the all-zero RNG lands it in shard 0 and yields exactly the
state `oneMQ` (the appended slot sifts up trivially from index 0). -/
theorem insertAll_sample :
    insertAll [sampleTask] ptls0 emptyMQ = ([0], oneMQ, { ptls0 with cursor := 1 }) := by
  have htasks : sift_up (Function.update emptyShard.tasks 0 sampleTask) 0 =
      oneShard.tasks := by
    rw [sift_up, if_neg (lt_irrefl 0)]
    funext j
    by_cases hj : j = 0
    · rw [hj, Function.update_same]
      rfl
    · rw [Function.update_noteq hj]
      rfl
  have hfun : Function.update emptyMQ.heaps 0
      (⟨sift_up (Function.update emptyShard.tasks 0 sampleTask) 0, 1, 5⟩ : taskheap) =
      oneMQ.heaps := by
    rw [htasks]
    funext k
    by_cases hk : k = 0
    · rw [hk, Function.update_same]
      rfl
    · rw [Function.update_noteq hk]
      show emptyShard = if k = 0 then oneShard else emptyShard
      rw [if_neg hk]
  have h1 : (insertAll [sampleTask] ptls0 emptyMQ).1 = [0] := by decide
  have h3 : (insertAll [sampleTask] ptls0 emptyMQ).2.2 = { ptls0 with cursor := 1 } := rfl
  have h2 : (insertAll [sampleTask] ptls0 emptyMQ).2.1 = oneMQ := by
    rw [show (insertAll [sampleTask] ptls0 emptyMQ).2.1 = ({ heap_p := 2, heaps := Function.update emptyMQ.heaps 0 (⟨sift_up (Function.update emptyShard.tasks 0 sampleTask) 0, 1, 5⟩ : taskheap) } : Scheduler) from rfl, hfun]
    rfl
  rw [← h1, ← h2, ← h3]

/-- C9, counterexample: the claim fails as stated.  One task is inserted
successfully (it lands in shard 0 under this RNG stream), but with an RNG
whose subsequent draws all hit shard 1, the single extraction exhausts its
probes and returns `NULL`, so the multiset of extracted tasks (empty) is not
the multiset of inserted tasks. -/
theorem C9_counterexample :
    (insertAll [sampleTask] ptlsMiss emptyMQ).1 = [0] ∧
    (∀ t ∈ [sampleTask], t.tid = -1) ∧
    ¬ (Multiset.map Task.id ↑(extractedTasks (extractN 1 1
        (insertAll [sampleTask] ptlsMiss emptyMQ).2.2
        (insertAll [sampleTask] ptlsMiss emptyMQ).2.1).1) =
      Multiset.map Task.id ↑[sampleTask]) := by
  refine ⟨by decide, by decide, by decide⟩

/-- C9, amended: starting from an empty multiqueue, whenever all `N` inserts
report success and all `N` extractions return a task, the multiset of the
extracted task identities equals the multiset of the inserted ones (tasks
unowned, priorities in `int16` range). -/
theorem C9_roundtrip (ts : List Task) (fuel : Nat) (p : Ptls) (s : Scheduler)
    (hp0 : 0 < s.heap_p)
    (hempty : ∀ k, k < s.heap_p → (s.heaps k).ntasks = 0 ∧ (s.heaps k).prio = INT16_MAX)
    (hts : ∀ t ∈ ts, t.tid = -1 ∧ t.prio ≤ INT16_MAX)
    (hins : ∀ r ∈ (insertAll ts p s).1, r = 0)
    (hext : ∀ d ∈ (extractN ts.length fuel (insertAll ts p s).2.2 (insertAll ts p s).2.1).1,
      DmResult.isTask d = true) :
    Multiset.map Task.id ↑(extractedTasks (extractN ts.length fuel (insertAll ts p s).2.2
      (insertAll ts p s).2.1).1) = Multiset.map Task.id ↑ts := by
  have hwf : mqWF s := fun k hk => shardWF_of_empty (hempty k hk).1 (hempty k hk).2
  obtain ⟨_, i2, i3⟩ := insertAll_spec ts p s hp0 hwf (fun t ht => (hts t ht).2) hins
  rw [mqIds_empty (fun k hk => (hempty k hk).1), add_zero] at i3
  obtain ⟨_, _, e3, e4⟩ := extractN_spec ts.length fuel (insertAll ts p s).2.2
    (insertAll ts p s).2.1 i2 hext
  rw [i3] at e3
  have hcard := congrArg Multiset.card e3
  rw [Multiset.card_add, Multiset.coe_card, Multiset.coe_card, List.length_map,
    List.length_map, e4] at hcard
  have hz : Multiset.card (mqIds (extractN ts.length fuel (insertAll ts p s).2.2
      (insertAll ts p s).2.1).2.1) = 0 := by omega
  rw [Multiset.card_eq_zero.mp hz, add_zero] at e3
  rw [← Multiset.map_coe, ← Multiset.map_coe] at e3
  exact e3

/-- C9, witness: a one-task round trip that succeeds end to end. -/
theorem C9_roundtrip_witness :
    (∀ r ∈ (insertAll [sampleTask] ptls0 emptyMQ).1, r = 0) ∧
    (∀ d ∈ (extractN 1 1 (insertAll [sampleTask] ptls0 emptyMQ).2.2
      (insertAll [sampleTask] ptls0 emptyMQ).2.1).1, DmResult.isTask d = true) ∧
    Multiset.map Task.id ↑(extractedTasks (extractN 1 1
      (insertAll [sampleTask] ptls0 emptyMQ).2.2
      (insertAll [sampleTask] ptls0 emptyMQ).2.1).1) =
      Multiset.map Task.id ↑[sampleTask] := by
  have hins : ∀ r ∈ (insertAll [sampleTask] ptls0 emptyMQ).1, r = 0 := by
    rw [insertAll_sample]
    decide
  have hext : ∀ d ∈ (extractN 1 1 (insertAll [sampleTask] ptls0 emptyMQ).2.2
      (insertAll [sampleTask] ptls0 emptyMQ).2.1).1, DmResult.isTask d = true := by
    rw [insertAll_sample]
    decide
  exact ⟨hins, hext,
    C9_roundtrip [sampleTask] 1 ptls0 emptyMQ (by decide) (by decide) (by decide) hins hext⟩

/-- C10: a `NULL` return from `multiq_deletemin` does not imply emptiness:
`oneMQ` has a shard with a task, yet under an RNG whose draws all hit the
empty shard 1, `multiq_deletemin` runs through all `heap_p` probe attempts
(advancing the RNG cursor by `2·heap_p`) and returns `NULL`, leaving the
multiqueue unchanged. -/
theorem C10_null_not_empty :
    0 < (oneMQ.heaps 0).ntasks ∧
    multiq_deletemin 1 ptlsOnes oneMQ =
      (DmResult.empty, oneMQ,
        { ptlsOnes with cursor := ptlsOnes.cursor + 2 * oneMQ.heap_p }) := by
  refine ⟨by decide, ?_⟩
  rfl

end Partr
